import Mathlib

/-!
Verification of the Edmonds–Karp max-flow core of the repository
(`edmondskarp.py`): a capacitated graph stored as a dense `size × size`
integer matrix plus the solver `edmonds_karp`, whose helper `bfs` performs a
FIFO breadth-first search recording BFS parents, and which repeatedly
augments along the parent chain from the sink.

The shallow embedding below translates the Python source directly:

* the adjacency matrix `self.adj_matrix` becomes `Mat n := Fin n → Fin n → Int`
  (capacities are integers; `Int` is used rather than `Nat` so that a
  subtraction below zero would be visible rather than silently truncated);
* the `parent` array (initialised to `[-1] * size`) becomes
  `Par n := Fin n → Option (Fin n)` with `none` for the `-1` sentinel;
* the `visited` array becomes `Fin n → Bool`;
* Python `while` loops become fuel-indexed recursion; a run that exhausts
  its fuel (or reads a `-1` parent as an index) yields `none`, and
  `float('Inf')` — the initial value of `path_flow` — is modelled by `⊤`
  in `WithTop Int`;
* the printing of each augmenting path is I/O only and is not modelled.

The `bfs`, `add_edge` and `add_vertex_data` functions of the source are
nested inside `__init__` (a defect the spec's design notes call out); the
embedding translates their bodies as they are written, hoisted to top
level, which is the only reading under which `edmonds_karp` (which calls
`self.bfs`) can run at all.
-/

namespace EK

/-- The capacity matrix `self.adj_matrix`: entry `g u v` is the residual
capacity from `u` to `v`. -/
abbrev Mat (n : Nat) := Fin n → Fin n → Int

/-- The `parent` array; `none` models the `-1` sentinel. -/
abbrev Par (n : Nat) := Fin n → Option (Fin n)

/-- Write a single matrix entry: `g[u][v] = x`. -/
def updCap {n : Nat} (g : Mat n) (u v : Fin n) (x : Int) : Mat n :=
  fun a b => if a = u ∧ b = v then x else g a b

/-- One step of the `for ind, val in enumerate(self.adj_matrix[u])` loop of
`bfs`: if `ind` is unvisited and `val > 0`, append it to the queue, mark it
visited and record `parent[ind] = u`. -/
def scanStep {n : Nat} (g : Mat n) (u : Fin n)
    (st : List (Fin n) × (Fin n → Bool) × Par n) (ind : Fin n) :
    List (Fin n) × (Fin n → Bool) × Par n :=
  if st.2.1 ind = false ∧ 0 < g u ind then
    (st.1 ++ [ind], Function.update st.2.1 ind true,
      Function.update st.2.2 ind (some u))
  else st

/-- The full row scan of `bfs`: fold `scanStep` over all column indices in
ascending order. -/
def bfsScan {n : Nat} (g : Mat n) (u : Fin n)
    (st : List (Fin n) × (Fin n → Bool) × Par n) :
    List (Fin n) × (Fin n → Bool) × Par n :=
  (List.finRange n).foldl (scanStep g u) st

/-- The `while queue:` loop of `bfs`: pop the queue head `u` and scan its
row, until the queue is empty.  One unit of fuel is spent per pop; `bfs`
supplies fuel `n`, which suffices because each vertex is enqueued at most
once. -/
def bfsLoop {n : Nat} (g : Mat n) :
    Nat → List (Fin n) × (Fin n → Bool) × Par n → (Fin n → Bool) × Par n
  | 0, st => st.2
  | fuel + 1, st =>
    match st.1 with
    | [] => st.2
    | u :: rest => bfsLoop g fuel (bfsScan g u (rest, st.2))

/-- `bfs(self, source, sink, parent)` of the source, as a function of the
matrix: start from queue `[source]` with only `source` visited, run the
queue loop, and return the final `visited` array together with the mutated
`parent` array (the Python function returns `visited[sink]` and mutates
`parent` in place; the caller reads both). -/
def bfs {n : Nat} (g : Mat n) (source : Fin n) (parent : Par n) :
    (Fin n → Bool) × Par n :=
  bfsLoop g n ([source], Function.update (fun _ => false) source true, parent)

/-- The first `while s != source:` loop of `edmonds_karp`:
`path_flow = min(path_flow, self.adj_matrix[parent[s]][s]); s = parent[s]`.
`acc` starts at `⊤` (Python's `float('Inf')`); the result is `none` if a
`-1` parent is read or the chain does not reach `source` within `fuel`
steps. -/
def walkMin {n : Nat} (g : Mat n) (parent : Par n) (source : Fin n) :
    Nat → Fin n → WithTop Int → Option (WithTop Int)
  | 0, s, acc => if s = source then some acc else none
  | fuel + 1, s, acc =>
    if s = source then some acc
    else
      match parent s with
      | none => none
      | some u => walkMin g parent source fuel u (min acc ((g u s : Int) : WithTop Int))

/-- The second `while v != source:` loop of `edmonds_karp`:
`self.adj_matrix[u][v] -= path_flow; self.adj_matrix[v][u] += path_flow`
for `u = parent[v]`, walking `v` back to `source`.  As in the source, the
reverse-edge update reads the matrix after the forward-edge update. -/
def augmentLoop {n : Nat} (parent : Par n) (source : Fin n) (pf : Int) :
    Nat → Mat n → Fin n → Option (Mat n)
  | 0, g, v => if v = source then some g else none
  | fuel + 1, g, v =>
    if v = source then some g
    else
      match parent v with
      | none => none
      | some u =>
        augmentLoop parent source pf fuel
          (updCap (updCap g u v (g u v - pf)) v u
            ((updCap g u v (g u v - pf)) v u + pf)) u

/-- Result of one iteration of the `while self.bfs(...)` loop:
`done` when the BFS no longer reaches the sink (normal termination),
`next` carrying the updated matrix, parent array and pushed `path_flow`,
and `stuck` for the modelling-only failure cases (a broken parent chain),
which are proved unreachable below. -/
inductive StepRes (n : Nat) where
  | done : StepRes n
  | next (g : Mat n) (parent : Par n) (pf : WithTop Int) : StepRes n
  | stuck : StepRes n

/-- One iteration of the main loop of `edmonds_karp`: run `bfs`; if the
sink was reached, compute the bottleneck `path_flow` along the parent chain
and augment along it.  The bottleneck is `⊤` only when the walk is empty
(`sink = source`), in which case the augmentation loop performs no update,
so `untop' 0` supplies an unused default. -/
def ekStep {n : Nat} (g : Mat n) (parent : Par n) (source sink : Fin n) :
    StepRes n :=
  let r := bfs g source parent
  if r.1 sink = true then
    match walkMin g r.2 source n sink ⊤ with
    | none => .stuck
    | some pf =>
      match augmentLoop r.2 source (pf.untop' 0) n g sink with
      | none => .stuck
      | some g2 => .next g2 r.2 pf
  else .done

/-- The `while self.bfs(source, sink, parent):` loop of `edmonds_karp`,
accumulating `max_flow` (a `WithTop Int`, since Python would accumulate
`float('Inf')` when `source == sink`).  `none` means the fuel ran out —
i.e. the modelled run did not terminate within `fuel` iterations. -/
def ekLoop {n : Nat} (source sink : Fin n) :
    Nat → Mat n → Par n → WithTop Int → Option (Mat n × WithTop Int)
  | 0, _, _, _ => none
  | fuel + 1, g, parent, maxFlow =>
    match ekStep g parent source sink with
    | .done => some (g, maxFlow)
    | .next g2 parent2 pf => ekLoop source sink fuel g2 parent2 (maxFlow + pf)
    | .stuck => none

/-- `edmonds_karp(self, source, sink)`: `parent = [-1] * self.size;
max_flow = 0`, then the augmenting loop.  Returns the final matrix together
with the returned `max_flow`. -/
def edmonds_karp {n : Nat} (g : Mat n) (source sink : Fin n) (fuel : Nat) :
    Option (Mat n × WithTop Int) :=
  ekLoop source sink fuel g (fun _ => none) 0

/-! ### Basic lemmas about matrix updates and the visited count -/

theorem updCap_same {n : Nat} (g : Mat n) (u v : Fin n) (x : Int) :
    updCap g u v x u v = x := by
  simp [updCap]

theorem updCap_other {n : Nat} (g : Mat n) (u v a b : Fin n) (x : Int)
    (h : ¬(a = u ∧ b = v)) : updCap g u v x a b = g a b := by
  simp [updCap, h]

/-- Number of vertices marked visited. -/
def countV {n : Nat} (vis : Fin n → Bool) : Nat :=
  (Finset.univ.filter (fun v => vis v = true)).card

theorem countV_le {n : Nat} (vis : Fin n → Bool) : countV vis ≤ n := by
  simpa [countV] using
    (Finset.card_filter_le Finset.univ (fun v => vis v = true)).trans
      (by simp)

theorem countV_lt {n : Nat} (vis : Fin n → Bool) (x : Fin n)
    (hx : vis x = false) : countV vis < n := by
  have hne : Finset.univ.filter (fun v => vis v = true) ≠ Finset.univ := by
    intro h
    have : x ∈ Finset.univ.filter (fun v => vis v = true) := by
      rw [h]; exact Finset.mem_univ x
    simp [hx] at this
  have hss : Finset.univ.filter (fun v => vis v = true) ⊂ Finset.univ :=
    lt_of_le_of_ne (Finset.filter_subset _ _) hne
  simpa [countV] using Finset.card_lt_card hss

theorem countV_update {n : Nat} (vis : Fin n → Bool) (x : Fin n)
    (hx : vis x = false) :
    countV (Function.update vis x true) = countV vis + 1 := by
  have hset : Finset.univ.filter (fun v => Function.update vis x true v = true)
      = insert x (Finset.univ.filter (fun v => vis v = true)) := by
    ext y
    by_cases hy : y = x <;> simp [Function.update, hy]
  have hxnot : x ∉ Finset.univ.filter (fun v => vis v = true) := by simp [hx]
  simp [countV, hset, Finset.card_insert_of_not_mem hxnot]

theorem countV_pos {n : Nat} (vis : Fin n → Bool) (x : Fin n)
    (hx : vis x = true) : 0 < countV vis := by
  have : x ∈ Finset.univ.filter (fun v => vis v = true) := by simp [hx]
  exact Finset.card_pos.mpr ⟨x, this⟩

/-- Generic preservation of an invariant along a left fold. -/
theorem foldl_inv {α σ : Type} (f : σ → α → σ) (P : σ → Prop)
    (h : ∀ s a, P s → P (f s a)) : ∀ (l : List α) (s : σ), P s → P (List.foldl f s l) := by
  intro l
  induction l with
  | nil => intro s hs; exact hs
  | cons a l ih => intro s hs; exact ih (f s a) (h s a hs)

/-! ### Invariants of the BFS scan and loop -/

/-- The parent array encodes, for every visited non-source vertex, a
visited parent across a strictly positive edge, with a rank that decreases
toward the source and stays below the number of visited vertices. -/
def ParentInv {n : Nat} (g : Mat n) (source : Fin n)
    (vis : Fin n → Bool) (par : Par n) : Prop :=
  ∃ rank : Fin n → Nat,
    (∀ v, vis v = true → rank v < countV vis) ∧
    (∀ v, vis v = true → v ≠ source →
      ∃ u, par v = some u ∧ vis u = true ∧ 0 < g u v ∧ rank u < rank v)

/-- What holds of the visited/parent state when the BFS queue loop ends. -/
def BfsPost {n : Nat} (g : Mat n) (source : Fin n)
    (vis : Fin n → Bool) (par : Par n) : Prop :=
  vis source = true ∧
  (∀ u v, vis u = true → 0 < g u v → vis v = true) ∧
  ParentInv g source vis par

theorem scanStep_mono {n : Nat} (g : Mat n) (u : Fin n)
    (st : List (Fin n) × (Fin n → Bool) × Par n) (a : Fin n) :
    ∀ x, st.2.1 x = true → (scanStep g u st a).2.1 x = true := by
  intro x hx
  by_cases hcond : st.2.1 a = false ∧ 0 < g u a
  · have hxa : x ≠ a := by
      intro h; subst h; rw [hx] at hcond; exact absurd hcond.1 (by simp)
    simp [scanStep, hcond, Function.update, hxa, hx]
  · simp [scanStep, hcond, hx]

theorem bfsScan_mono {n : Nat} (g : Mat n) (u : Fin n)
    (st : List (Fin n) × (Fin n → Bool) × Par n) :
    ∀ x, st.2.1 x = true → (bfsScan g u st).2.1 x = true :=
  foldl_inv (scanStep g u) (fun s => ∀ x, st.2.1 x = true → s.2.1 x = true)
    (fun s a hs x hx => scanStep_mono g u s a x (hs x hx))
    (List.finRange n) st (fun _ hx => hx)

theorem bfsScan_queue_vis {n : Nat} (g : Mat n) (u : Fin n)
    (st : List (Fin n) × (Fin n → Bool) × Par n)
    (h : ∀ x ∈ st.1, st.2.1 x = true) :
    ∀ x ∈ (bfsScan g u st).1, (bfsScan g u st).2.1 x = true := by
  refine foldl_inv (scanStep g u) (fun s => ∀ x ∈ s.1, s.2.1 x = true)
    ?_ (List.finRange n) st h
  intro s a hs x hx
  by_cases hcond : s.2.1 a = false ∧ 0 < g u a
  · simp only [scanStep, hcond, and_self, if_true] at hx ⊢
    rcases List.mem_append.mp hx with hx | hx
    · by_cases hxa : x = a
      · simp [hxa, Function.update]
      · simp [Function.update, hxa, hs x hx]
    · simp only [List.mem_singleton] at hx
      simp [hx, Function.update]
  · simp only [scanStep, hcond, if_false] at hx ⊢
    exact hs x hx

theorem bfsScan_measure {n : Nat} (g : Mat n) (u : Fin n)
    (st : List (Fin n) × (Fin n → Bool) × Par n) :
    (bfsScan g u st).1.length + (n - countV (bfsScan g u st).2.1)
      = st.1.length + (n - countV st.2.1) := by
  refine foldl_inv (scanStep g u)
    (fun s => s.1.length + (n - countV s.2.1)
      = st.1.length + (n - countV st.2.1)) ?_ (List.finRange n) st rfl
  intro s a hs
  by_cases hcond : s.2.1 a = false ∧ 0 < g u a
  · have hlt : countV s.2.1 < n := countV_lt s.2.1 a hcond.1
    have hupd := countV_update s.2.1 a hcond.1
    simp only [scanStep, hcond, and_self, if_true, List.length_append,
      List.length_singleton, hupd]
    omega
  · simpa [scanStep, hcond] using hs

theorem bfsScan_new_from_old {n : Nat} (g : Mat n) (u : Fin n)
    (st : List (Fin n) × (Fin n → Bool) × Par n) :
    ∀ x, (bfsScan g u st).2.1 x = true → x ∉ (bfsScan g u st).1 →
      st.2.1 x = true ∧ x ∉ st.1 := by
  refine foldl_inv (scanStep g u)
    (fun s => ∀ x, s.2.1 x = true → x ∉ s.1 → st.2.1 x = true ∧ x ∉ st.1)
    ?_ (List.finRange n) st (fun x hx hq => ⟨hx, hq⟩)
  intro s a hs x hx hq
  by_cases hcond : s.2.1 a = false ∧ 0 < g u a
  · simp only [scanStep, hcond, and_self, if_true] at hx hq
    have hxa : x ≠ a := by
      intro h; subst h; exact hq (List.mem_append.mpr (Or.inr (by simp)))
    have hx' : s.2.1 x = true := by
      simpa [Function.update, hxa] using hx
    exact hs x hx' (fun hmem => hq (List.mem_append.mpr (Or.inl hmem)))
  · simp only [scanStep, hcond, if_false] at hx hq
    exact hs x hx hq

theorem bfsScan_parentInv {n : Nat} (g : Mat n) (source u : Fin n)
    (st : List (Fin n) × (Fin n → Bool) × Par n)
    (hu : st.2.1 u = true) (hPI : ParentInv g source st.2.1 st.2.2) :
    ParentInv g source (bfsScan g u st).2.1 (bfsScan g u st).2.2 := by
  have main := foldl_inv (scanStep g u)
    (fun s => s.2.1 u = true ∧ ParentInv g source s.2.1 s.2.2)
    ?_ (List.finRange n) st ⟨hu, hPI⟩
  · exact main.2
  intro s a hs
  refine ⟨scanStep_mono g u s a u hs.1, ?_⟩
  by_cases hcond : s.2.1 a = false ∧ 0 < g u a
  · obtain ⟨rank, hbound, hchain⟩ := hs.2
    refine ⟨Function.update rank a (rank u + 1), ?_, ?_⟩
    · intro v hv
      simp only [scanStep, hcond, and_self, if_true] at hv ⊢
      rw [countV_update s.2.1 a hcond.1]
      by_cases hva : v = a
      · subst hva
        simp only [Function.update_same]
        have := hbound u hs.1
        omega
      · rw [Function.update_noteq hva] at hv ⊢
        exact Nat.lt_succ_of_lt (hbound v hv)
    · intro v hv hvs
      simp only [scanStep, hcond, and_self, if_true] at hv ⊢
      have hua : u ≠ a := by
        intro h; rw [h] at hs; rw [hs.1] at hcond; exact absurd hcond.1 (by simp)
      by_cases hva : v = a
      · refine ⟨u, ?_, ?_, ?_, ?_⟩
        · simp [Function.update, hva]
        · simp [Function.update, hua, hs.1]
        · rw [hva]; exact hcond.2
        · simp [Function.update, hua, hva]
      · rw [Function.update_noteq hva] at hv
        obtain ⟨w, hw1, hw2, hw3, hw4⟩ := hchain v hv hvs
        have hwa : w ≠ a := by
          intro h; rw [h] at hw2; rw [hw2] at hcond; exact absurd hcond.1 (by simp)
        refine ⟨w, ?_, ?_, hw3, ?_⟩
        · simp [Function.update, hva, hw1]
        · simp [Function.update, hwa, hw2]
        · simp [Function.update, hva, hwa, hw4]
  · simpa [scanStep, hcond] using hs.2

theorem bfsScan_closure_u {n : Nat} (g : Mat n) (u : Fin n)
    (st : List (Fin n) × (Fin n → Bool) × Par n) :
    ∀ v, 0 < g u v → (bfsScan g u st).2.1 v = true := by
  suffices h : ∀ (l : List (Fin n)) (s : List (Fin n) × (Fin n → Bool) × Par n),
      (∀ v, 0 < g u v → v ∈ l ∨ s.2.1 v = true) →
      ∀ v, 0 < g u v → (List.foldl (scanStep g u) s l).2.1 v = true by
    intro v hv
    exact h (List.finRange n) st (fun v _ => Or.inl (List.mem_finRange v)) v hv
  intro l
  induction l with
  | nil =>
    intro s hcov v hv
    rcases hcov v hv with h | h
    · exact absurd h (List.not_mem_nil v)
    · exact h
  | cons a l ih =>
    intro s hcov v hv
    refine ih (scanStep g u s a) ?_ v hv
    intro w hw
    rcases hcov w hw with h | h
    · rcases List.mem_cons.mp h with h | h
      · right
        rw [h] at hw
        rw [h]
        by_cases hcond : s.2.1 a = false ∧ 0 < g u a
        · simp [scanStep, hcond, Function.update]
        · have hvis : s.2.1 a = true := by
            rcases Bool.eq_false_or_eq_true (s.2.1 a) with h' | h'
            · exact h'
            · exact absurd ⟨h', hw⟩ hcond
          exact scanStep_mono g u s a a hvis
      · exact Or.inl h
    · exact Or.inr (scanStep_mono g u s a w h)

/-! ### The BFS queue loop -/

/-- Invariant of the `while queue:` loop: queue members are visited, the
source is visited, every visited vertex no longer in the queue has been
fully processed (all its positive out-neighbours are visited), and the
parent array is sound. -/
def LoopInv {n : Nat} (g : Mat n) (source : Fin n)
    (st : List (Fin n) × (Fin n → Bool) × Par n) : Prop :=
  (∀ x ∈ st.1, st.2.1 x = true) ∧
  st.2.1 source = true ∧
  (∀ x, st.2.1 x = true → x ∉ st.1 → ∀ v, 0 < g x v → st.2.1 v = true) ∧
  ParentInv g source st.2.1 st.2.2

theorem bfsLoop_post {n : Nat} (g : Mat n) (source : Fin n) :
    ∀ (fuel : Nat) (st : List (Fin n) × (Fin n → Bool) × Par n),
      LoopInv g source st →
      st.1.length + (n - countV st.2.1) ≤ fuel →
      BfsPost g source (bfsLoop g fuel st).1 (bfsLoop g fuel st).2 := by
  intro fuel
  induction fuel with
  | zero =>
    intro st hInv hm
    have hq : st.1 = [] := by
      have : st.1.length = 0 := by omega
      exact List.eq_nil_of_length_eq_zero this
    simp only [bfsLoop]
    exact ⟨hInv.2.1, fun u v hu hpos =>
      hInv.2.2.1 u hu (by rw [hq]; exact List.not_mem_nil u) v hpos, hInv.2.2.2⟩
  | succ fuel ih =>
    intro st hInv hm
    match hqe : st.1 with
    | [] =>
      simp only [bfsLoop, hqe]
      refine ⟨hInv.2.1, fun u v hu hpos => ?_, hInv.2.2.2⟩
      exact hInv.2.2.1 u hu (by rw [hqe]; exact List.not_mem_nil u) v hpos
    | u :: rest =>
      simp only [bfsLoop, hqe]
      have huvis : st.2.1 u = true := hInv.1 u (by rw [hqe]; exact List.mem_cons_self u rest)
      have hrest : ∀ x ∈ rest, st.2.1 x = true := fun x hx =>
        hInv.1 x (by rw [hqe]; exact List.mem_cons_of_mem u hx)
      set st' := bfsScan g u (rest, st.2) with hst'
      have hInv' : LoopInv g source st' := by
        refine ⟨bfsScan_queue_vis g u (rest, st.2) hrest, ?_, ?_, ?_⟩
        · exact bfsScan_mono g u (rest, st.2) source hInv.2.1
        · intro x hx hxq v hpos
          by_cases hxu : x = u
          · rw [hxu] at hpos
            exact bfsScan_closure_u g u (rest, st.2) v hpos
          · obtain ⟨hold, hqold⟩ := bfsScan_new_from_old g u (rest, st.2) x hx hxq
            have : st.2.1 v = true :=
              hInv.2.2.1 x hold
                (by rw [hqe]; intro hmem
                    rcases List.mem_cons.mp hmem with h | h
                    · exact hxu h
                    · exact hqold h) v hpos
            exact bfsScan_mono g u (rest, st.2) v this
        · exact bfsScan_parentInv g source u (rest, st.2) huvis hInv.2.2.2
      have hm' : st'.1.length + (n - countV st'.2.1) ≤ fuel := by
        have := bfsScan_measure g u (rest, st.2)
        rw [← hst'] at this
        have hlen : st.1.length = rest.length + 1 := by rw [hqe]; simp
        simp only at this
        omega
      exact ih st' hInv' hm'

theorem bfs_post {n : Nat} (g : Mat n) (source : Fin n) (par : Par n) :
    BfsPost g source (bfs g source par).1 (bfs g source par).2 := by
  have hvis0 : Function.update (fun _ : Fin n => false) source true source = true := by
    simp [Function.update]
  have hcnt : 0 < countV (Function.update (fun _ : Fin n => false) source true) :=
    countV_pos _ source hvis0
  refine bfsLoop_post g source n
    ([source], Function.update (fun _ => false) source true, par) ?_ ?_
  · refine ⟨?_, hvis0, ?_, ?_⟩
    · intro x hx
      rcases List.mem_singleton.mp hx with h
      rw [h]; exact hvis0
    · intro x hx hxq
      have hxs : x ≠ source := fun h => hxq (by rw [h]; exact List.mem_singleton_self source)
      have hx' : Function.update (fun _ : Fin n => false) source true x = true := hx
      rw [Function.update_noteq hxs] at hx'
      exact absurd hx' (by simp)
    · refine ⟨fun _ => 0, fun v hv => hcnt, ?_⟩
      intro v hv hvs
      have hv' : Function.update (fun _ : Fin n => false) source true v = true := hv
      rw [Function.update_noteq hvs] at hv'
      exact absurd hv' (by simp)
  · have hpos : 0 < n := source.pos
    have hle : countV (Function.update (fun _ : Fin n => false) source true) ≤ n :=
      countV_le _
    simp only [List.length_singleton]
    omega

/-- The queue and visited components of the scan never read the parent
array, so they do not depend on it. -/
theorem bfsScan_par_indep {n : Nat} (g : Mat n) (u : Fin n) :
    ∀ (l : List (Fin n)) (s t : List (Fin n) × (Fin n → Bool) × Par n),
      s.1 = t.1 → s.2.1 = t.2.1 →
      (List.foldl (scanStep g u) s l).1 = (List.foldl (scanStep g u) t l).1 ∧
      (List.foldl (scanStep g u) s l).2.1 = (List.foldl (scanStep g u) t l).2.1 := by
  intro l
  induction l with
  | nil => intro s t h1 h2; exact ⟨h1, h2⟩
  | cons a l ih =>
    intro s t h1 h2
    refine ih (scanStep g u s a) (scanStep g u t a) ?_ ?_
    · by_cases hcond : s.2.1 a = false ∧ 0 < g u a
      · simp [scanStep, hcond, ← h2, h1]
      · simp [scanStep, hcond, ← h2, h1]
    · by_cases hcond : s.2.1 a = false ∧ 0 < g u a
      · simp [scanStep, hcond, ← h2]
      · simp [scanStep, hcond, ← h2]

/-- The visited set computed by the BFS does not depend on the incoming
parent array (the Python code only ever writes `parent`, never reads it). -/
theorem bfsLoop_vis_indep {n : Nat} (g : Mat n) :
    ∀ (fuel : Nat) (q : List (Fin n)) (vis : Fin n → Bool) (par par2 : Par n),
      (bfsLoop g fuel (q, vis, par)).1 = (bfsLoop g fuel (q, vis, par2)).1 := by
  intro fuel
  induction fuel with
  | zero => intro q vis par par2; rfl
  | succ fuel ih =>
    intro q vis par par2
    match q with
    | [] => rfl
    | u :: rest =>
      simp only [bfsLoop]
      obtain ⟨hq, hv⟩ := bfsScan_par_indep g u (List.finRange n)
        (rest, vis, par) (rest, vis, par2) rfl rfl
      have h1 : bfsScan g u (rest, vis, par)
          = ((bfsScan g u (rest, vis, par)).1,
             (bfsScan g u (rest, vis, par)).2.1,
             (bfsScan g u (rest, vis, par)).2.2) := rfl
      have h2 : bfsScan g u (rest, vis, par2)
          = ((bfsScan g u (rest, vis, par)).1,
             (bfsScan g u (rest, vis, par)).2.1,
             (bfsScan g u (rest, vis, par2)).2.2) := by
        have e1 : (bfsScan g u (rest, vis, par2)).1
            = (bfsScan g u (rest, vis, par)).1 := (hq).symm
        have e2 : (bfsScan g u (rest, vis, par2)).2.1
            = (bfsScan g u (rest, vis, par)).2.1 := (hv).symm
        calc bfsScan g u (rest, vis, par2)
            = ((bfsScan g u (rest, vis, par2)).1,
               (bfsScan g u (rest, vis, par2)).2.1,
               (bfsScan g u (rest, vis, par2)).2.2) := rfl
          _ = _ := by rw [e1, e2]
      rw [h1, h2]
      exact ih _ _ _ _

theorem bfs_vis_indep {n : Nat} (g : Mat n) (source : Fin n) (par par2 : Par n) :
    (bfs g source par).1 = (bfs g source par2).1 :=
  bfsLoop_vis_indep g n [source] (Function.update (fun _ => false) source true) par par2

/-! ### Parent chains -/

/-- A parent chain: a list running from some vertex back to the source,
each step following a recorded parent across a strictly positive edge. -/
def IsChain {n : Nat} (g : Mat n) (par : Par n) (source : Fin n) :
    List (Fin n) → Prop
  | [] => False
  | [v] => v = source
  | v :: u :: rest => par v = some u ∧ 0 < g u v ∧ IsChain g par source (u :: rest)

/-- From a sound parent array, every visited vertex has a duplicate-free
parent chain back to the source. -/
theorem chain_exists {n : Nat} (g : Mat n) (source : Fin n)
    (vis : Fin n → Bool) (par : Par n) (rank : Fin n → Nat)
    (hchain : ∀ v, vis v = true → v ≠ source →
      ∃ u, par v = some u ∧ vis u = true ∧ 0 < g u v ∧ rank u < rank v) :
    ∀ (k : Nat) (v : Fin n), vis v = true → rank v < k →
      ∃ l : List (Fin n), l.head? = some v ∧ l.getLast? = some source ∧
        IsChain g par source l ∧ l.Nodup ∧
        (∀ x ∈ l, vis x = true ∧ rank x ≤ rank v) := by
  intro k
  induction k with
  | zero => intro v _ hr; omega
  | succ k ih =>
    intro v hv hr
    by_cases hvs : v = source
    · refine ⟨[v], rfl, ?_, ?_, List.nodup_singleton v, ?_⟩
      · rw [hvs]; rfl
      · exact hvs
      · intro x hx
        rw [List.mem_singleton.mp hx]
        exact ⟨hv, le_refl _⟩
    · obtain ⟨u, hpar, huvis, hpos, hrank⟩ := hchain v hv hvs
      have hru : rank u < k := by omega
      obtain ⟨l', hhead, hlast, hchain', hnodup, hmem⟩ := ih u huvis hru
      cases l' with
      | nil => exact absurd hhead (by simp)
      | cons u' rest =>
        have hu' : u' = u := by simpa using hhead
        subst hu'
        refine ⟨v :: u' :: rest, rfl, ?_, ?_, ?_, ?_⟩
        · rw [List.getLast?_cons_cons]
          exact hlast
        · exact ⟨hpar, hpos, hchain'⟩
        · refine List.nodup_cons.mpr ⟨?_, hnodup⟩
          intro hvmem
          have := (hmem v hvmem).2
          omega
        · intro x hx
          rcases List.mem_cons.mp hx with h | h
          · rw [h]; exact ⟨hv, le_refl _⟩
          · obtain ⟨hxv, hxr⟩ := hmem x h
            exact ⟨hxv, by omega⟩

/-- The (parent, child) pairs visited by the augmentation walk along a
chain: pair `(u, v)` means the walk updates `g[u][v] -= pf` and
`g[v][u] += pf`. -/
def chainPairs {n : Nat} : List (Fin n) → List (Fin n × Fin n)
  | v :: u :: rest => (u, v) :: chainPairs (u :: rest)
  | _ => []

/-- The residual capacities read by the bottleneck walk along a chain. -/
def chainCaps {n : Nat} (g : Mat n) (l : List (Fin n)) : List (WithTop Int) :=
  (chainPairs l).map (fun p => ((g p.1 p.2 : Int) : WithTop Int))

theorem chainPairs_mem {n : Nat} :
    ∀ (l : List (Fin n)) (p : Fin n × Fin n), p ∈ chainPairs l → p.1 ∈ l ∧ p.2 ∈ l := by
  intro l
  induction l with
  | nil => intro p hp; exact absurd hp (List.not_mem_nil p)
  | cons v l ih =>
    match l with
    | [] => intro p hp; exact absurd hp (List.not_mem_nil p)
    | u :: rest =>
      intro p hp
      rcases List.mem_cons.mp hp with h | h
      · rw [h]
        exact ⟨List.mem_cons_of_mem v (List.mem_cons_self u rest), List.mem_cons_self v _⟩
      · obtain ⟨h1, h2⟩ := ih p h
        exact ⟨List.mem_cons_of_mem v h1, List.mem_cons_of_mem v h2⟩

theorem chainPairs_pos {n : Nat} (g : Mat n) (par : Par n) (source : Fin n) :
    ∀ (l : List (Fin n)), IsChain g par source l →
      ∀ p ∈ chainPairs l, 0 < g p.1 p.2 := by
  intro l
  induction l with
  | nil => intro h p hp; exact absurd hp (List.not_mem_nil p)
  | cons v l ih =>
    match l with
    | [] => intro h p hp; exact absurd hp (List.not_mem_nil p)
    | u :: rest =>
      intro h p hp
      rcases List.mem_cons.mp hp with hpp | hpp
      · rw [hpp]
        exact h.2.1
      · exact ih h.2.2 p hpp

/-- The bottleneck walk of `edmonds_karp`, along a given parent chain, is
the running minimum of the capacities along the chain. -/
theorem walkMin_eq_chain {n : Nat} (g : Mat n) (par : Par n) (source : Fin n) :
    ∀ (l : List (Fin n)) (v : Fin n) (acc : WithTop Int) (fuel : Nat),
      IsChain g par source l → l.head? = some v →
      (∀ x ∈ l.dropLast, x ≠ source) → l.length ≤ fuel + 1 →
      walkMin g par source fuel v acc
        = some (List.foldl min acc (chainCaps g l)) := by
  intro l
  induction l with
  | nil => intro v acc fuel hc; exact absurd hc id
  | cons w l ih =>
    match l with
    | [] =>
      intro v acc fuel hc hhead _ _
      have hwv : w = v := by simpa using hhead
      have hws : w = source := hc
      have hvs : v = source := by rw [← hwv]; exact hws
      match fuel with
      | 0 => simp [walkMin, hvs, chainCaps, chainPairs]
      | fuel + 1 => simp [walkMin, hvs, chainCaps, chainPairs]
    | u :: rest =>
      intro v acc fuel hc hhead hdl hlen
      have hwv : w = v := by simpa using hhead
      have hvns : v ≠ source := by
        rw [← hwv]
        exact hdl w (by rw [List.dropLast_cons₂]; exact List.mem_cons_self w _)
      match fuel with
      | 0 => simp at hlen
      | fuel + 1 =>
        have hpar : par v = some u := by rw [← hwv]; exact hc.1
        simp only [walkMin, hvns, if_false, hpar]
        have hcaps : chainCaps g (w :: u :: rest)
            = ((g u w : Int) : WithTop Int) :: chainCaps g (u :: rest) := rfl
        rw [← hwv]
        rw [hcaps]
        simp only [List.foldl_cons]
        refine ih u (min acc ((g u w : Int) : WithTop Int)) fuel hc.2.2 rfl ?_ ?_
        · intro x hx
          refine hdl x ?_
          rw [List.dropLast_cons₂]
          exact List.mem_cons_of_mem w hx
        · simp only [List.length_cons] at hlen ⊢
          omega

/-- One forward/backward update pair of the augmentation loop. -/
def pairUpd {n : Nat} (g : Mat n) (u v : Fin n) (pf : Int) : Mat n :=
  updCap (updCap g u v (g u v - pf)) v u ((updCap g u v (g u v - pf)) v u + pf)

/-- The augmentation applied along an explicit chain (the reference form of
`augmentLoop` used for reasoning). -/
def applyAug {n : Nat} (pf : Int) : List (Fin n) → Mat n → Mat n
  | v :: u :: rest, g => applyAug pf (u :: rest) (pairUpd g u v pf)
  | _, g => g

/-- The augmentation loop of `edmonds_karp`, along a given parent chain,
performs exactly the chain of paired updates. -/
theorem augmentLoop_eq_chain {n : Nat} (g0 : Mat n) (par : Par n) (source : Fin n) (pf : Int) :
    ∀ (l : List (Fin n)) (v : Fin n) (g : Mat n) (fuel : Nat),
      IsChain g0 par source l → l.head? = some v →
      (∀ x ∈ l.dropLast, x ≠ source) → l.length ≤ fuel + 1 →
      augmentLoop par source pf fuel g v = some (applyAug pf l g) := by
  intro l
  induction l with
  | nil => intro v g fuel hc; exact absurd hc id
  | cons w l ih =>
    match l with
    | [] =>
      intro v g fuel hc hhead _ _
      have hwv : w = v := by simpa using hhead
      have hvs : v = source := by rw [← hwv]; exact hc
      match fuel with
      | 0 => simp [augmentLoop, hvs, applyAug]
      | fuel + 1 => simp [augmentLoop, hvs, applyAug]
    | u :: rest =>
      intro v g fuel hc hhead hdl hlen
      have hwv : w = v := by simpa using hhead
      have hvns : v ≠ source := by
        rw [← hwv]
        exact hdl w (by rw [List.dropLast_cons₂]; exact List.mem_cons_self w _)
      match fuel with
      | 0 => simp at hlen
      | fuel + 1 =>
        have hpar : par v = some u := by rw [← hwv]; exact hc.1
        simp only [augmentLoop, hvns, if_false, hpar]
        rw [← hwv]
        have happ : applyAug pf (w :: u :: rest) g
            = applyAug pf (u :: rest) (pairUpd g u w pf) := rfl
        rw [happ]
        refine ih u (pairUpd g u w pf) fuel hc.2.2 rfl ?_ ?_
        · intro x hx
          refine hdl x ?_
          rw [List.dropLast_cons₂]
          exact List.mem_cons_of_mem w hx
        · simp only [List.length_cons] at hlen ⊢
          omega

/-! ### Folded minima -/

theorem foldl_min_le_acc {α : Type} [LinearOrder α] :
    ∀ (l : List α) (acc : α), List.foldl min acc l ≤ acc := by
  intro l
  induction l with
  | nil => intro acc; exact le_refl acc
  | cons a l ih =>
    intro acc
    exact le_trans (ih (min acc a)) (min_le_left acc a)

theorem foldl_min_le_mem {α : Type} [LinearOrder α] :
    ∀ (l : List α) (acc x : α), x ∈ l → List.foldl min acc l ≤ x := by
  intro l
  induction l with
  | nil => intro acc x hx; exact absurd hx (List.not_mem_nil x)
  | cons a l ih =>
    intro acc x hx
    rcases List.mem_cons.mp hx with h | h
    · rw [h]
      exact le_trans (foldl_min_le_acc l (min acc a)) (min_le_right acc a)
    · exact ih (min acc a) x h

theorem le_foldl_min {α : Type} [LinearOrder α] :
    ∀ (l : List α) (acc a : α), (∀ x ∈ l, a ≤ x) → a ≤ acc →
      a ≤ List.foldl min acc l := by
  intro l
  induction l with
  | nil => intro acc a _ h; exact h
  | cons b l ih =>
    intro acc a hl hacc
    refine ih (min acc b) a (fun x hx => hl x (List.mem_cons_of_mem b hx)) ?_
    exact le_min hacc (hl b (List.mem_cons_self b l))

/-! ### Algebra of the paired augmentation updates -/

theorem pairUpd_uv {n : Nat} (g : Mat n) (u v : Fin n) (pf : Int) (huv : u ≠ v) :
    pairUpd g u v pf u v = g u v - pf := by
  have h1 : ¬(u = v ∧ v = u) := fun h => huv h.1
  rw [pairUpd, updCap_other _ _ _ _ _ _ h1, updCap_same]

theorem pairUpd_vu {n : Nat} (g : Mat n) (u v : Fin n) (pf : Int) (huv : u ≠ v) :
    pairUpd g u v pf v u = g v u + pf := by
  have h1 : ¬(v = u ∧ u = v) := fun h => huv h.2
  rw [pairUpd, updCap_same, updCap_other _ _ _ _ _ _ h1]

theorem pairUpd_other {n : Nat} (g : Mat n) (u v a b : Fin n) (pf : Int)
    (h1 : ¬(a = u ∧ b = v)) (h2 : ¬(a = v ∧ b = u)) :
    pairUpd g u v pf a b = g a b := by
  rw [pairUpd, updCap_other _ _ _ _ _ _ h2, updCap_other _ _ _ _ _ _ h1]

theorem chainPairs_ne {n : Nat} :
    ∀ (l : List (Fin n)), l.Nodup → ∀ p ∈ chainPairs l, p.1 ≠ p.2 := by
  intro l
  induction l with
  | nil => intro _ p hp; exact absurd hp (List.not_mem_nil p)
  | cons v l ih =>
    match l with
    | [] => intro _ p hp; exact absurd hp (List.not_mem_nil p)
    | u :: rest =>
      intro hnd p hp
      have hvnotin : v ∉ u :: rest := (List.nodup_cons.mp hnd).1
      rcases List.mem_cons.mp hp with h | h
      · rw [h]
        intro huv
        have huv' : u = v := huv
        exact hvnotin (by rw [← huv']; exact List.mem_cons_self u rest)
      · exact ih (List.nodup_cons.mp hnd).2 p h

theorem chainPairs_no_swap {n : Nat} :
    ∀ (l : List (Fin n)), l.Nodup → ∀ (a b : Fin n),
      (a, b) ∈ chainPairs l → (b, a) ∉ chainPairs l := by
  intro l
  induction l with
  | nil => intro _ a b hab; exact absurd hab (List.not_mem_nil _)
  | cons v l ih =>
    match l with
    | [] => intro _ a b hab; exact absurd hab (List.not_mem_nil _)
    | u :: rest =>
      intro hnd a b hab hba
      have hvnotin : v ∉ u :: rest := (List.nodup_cons.mp hnd).1
      have hnd' : (u :: rest).Nodup := (List.nodup_cons.mp hnd).2
      have huv : u ≠ v := fun h => hvnotin (by rw [← h]; exact List.mem_cons_self u rest)
      have hnov : ∀ p ∈ chainPairs (u :: rest), p.1 ≠ v ∧ p.2 ≠ v := by
        intro p hp
        obtain ⟨h1, h2⟩ := chainPairs_mem (u :: rest) p hp
        constructor
        · intro h; rw [h] at h1; exact hvnotin h1
        · intro h; rw [h] at h2; exact hvnotin h2
      rcases List.mem_cons.mp hab with h | h
      · have ha : a = u := congrArg Prod.fst h
        have hb : b = v := congrArg Prod.snd h
        rcases List.mem_cons.mp hba with h' | h'
        · have : b = u := congrArg Prod.fst h'
          rw [hb] at this
          exact huv this.symm
        · exact (hnov (b, a) h').1 hb
      · rcases List.mem_cons.mp hba with h' | h'
        · have : a = v := congrArg Prod.snd h'
          exact (hnov (a, b) h).1 this
        · exact ih hnd' a b h h'

/-- Entry-level characterization of a full chain augmentation: a forward
pair loses `pf`, its reverse gains `pf`, everything else is untouched. -/
theorem applyAug_entry {n : Nat} (pf : Int) :
    ∀ (l : List (Fin n)) (g : Mat n) (a b : Fin n), l.Nodup →
      applyAug pf l g a b =
        if (a, b) ∈ chainPairs l then g a b - pf
        else if (b, a) ∈ chainPairs l then g a b + pf
        else g a b := by
  intro l
  induction l with
  | nil => intro g a b _; simp [applyAug, chainPairs]
  | cons v l ih =>
    match l with
    | [] => intro g a b _; simp [applyAug, chainPairs]
    | u :: rest =>
      intro g a b hnd
      have hvnotin : v ∉ u :: rest := (List.nodup_cons.mp hnd).1
      have hnd' : (u :: rest).Nodup := (List.nodup_cons.mp hnd).2
      have huv : u ≠ v := fun h => hvnotin (by rw [← h]; exact List.mem_cons_self u rest)
      have hnov : ∀ p ∈ chainPairs (u :: rest), p.1 ≠ v ∧ p.2 ≠ v := by
        intro p hp
        obtain ⟨h1, h2⟩ := chainPairs_mem (u :: rest) p hp
        constructor
        · intro h; rw [h] at h1; exact hvnotin h1
        · intro h; rw [h] at h2; exact hvnotin h2
      have hstep : applyAug pf (v :: u :: rest) g a b
          = applyAug pf (u :: rest) (pairUpd g u v pf) a b := rfl
      have hpairs : chainPairs (v :: u :: rest) = (u, v) :: chainPairs (u :: rest) := rfl
      rw [hstep, ih (pairUpd g u v pf) a b hnd', hpairs]
      by_cases h1 : (a, b) ∈ chainPairs (u :: rest)
      · have hbv : b ≠ v := (hnov (a, b) h1).2
        have hav : a ≠ v := (hnov (a, b) h1).1
        have hne1 : ¬(a = u ∧ b = v) := fun h => hbv h.2
        have hne2 : ¬(a = v ∧ b = u) := fun h => hav h.1
        rw [if_pos h1, if_pos (List.mem_cons_of_mem _ h1),
          pairUpd_other g u v a b pf hne1 hne2]
      · rw [if_neg h1]
        by_cases h2 : (b, a) ∈ chainPairs (u :: rest)
        · have hbv : b ≠ v := (hnov (b, a) h2).1
          have hav : a ≠ v := (hnov (b, a) h2).2
          have hne1 : ¬(a = u ∧ b = v) := fun h => hbv h.2
          have hne2 : ¬(a = v ∧ b = u) := fun h => hav h.1
          have hnc1 : (a, b) ∉ (u, v) :: chainPairs (u :: rest) := by
            intro h
            rcases List.mem_cons.mp h with h | h
            · exact hbv (congrArg Prod.snd h)
            · exact h1 h
          rw [if_pos h2, if_neg hnc1, if_pos (List.mem_cons_of_mem _ h2),
            pairUpd_other g u v a b pf hne1 hne2]
        · rw [if_neg h2]
          by_cases hab : a = u ∧ b = v
          · have hmem : (a, b) ∈ (u, v) :: chainPairs (u :: rest) := by
              rw [hab.1, hab.2]; exact List.mem_cons_self _ _
            rw [if_pos hmem, hab.1, hab.2, pairUpd_uv g u v pf huv]
          · by_cases hba : a = v ∧ b = u
            · have hnc1 : (a, b) ∉ (u, v) :: chainPairs (u :: rest) := by
                intro h
                rcases List.mem_cons.mp h with h | h
                · exact hab ⟨congrArg Prod.fst h, congrArg Prod.snd h⟩
                · exact h1 h
              have hmem : (b, a) ∈ (u, v) :: chainPairs (u :: rest) := by
                rw [hba.1, hba.2]; exact List.mem_cons_self _ _
              rw [if_neg hnc1, if_pos hmem, hba.1, hba.2, pairUpd_vu g u v pf huv]
            · have hnc1 : (a, b) ∉ (u, v) :: chainPairs (u :: rest) := by
                intro h
                rcases List.mem_cons.mp h with h | h
                · exact hab ⟨congrArg Prod.fst h, congrArg Prod.snd h⟩
                · exact h1 h
              have hnc2 : (b, a) ∉ (u, v) :: chainPairs (u :: rest) := by
                intro h
                rcases List.mem_cons.mp h with h | h
                · refine hba ⟨?_, ?_⟩
                  · have := congrArg Prod.snd h; exact this
                  · have := congrArg Prod.fst h; exact this
                · exact h2 h
              rw [if_neg hnc1, if_neg hnc2,
                pairUpd_other g u v a b pf hab hba]

/-- An augmentation keeps all entries non-negative provided the pushed
amount is non-negative and bounded by every forward capacity it touches. -/
theorem applyAug_nonneg {n : Nat} (pf : Int) (l : List (Fin n)) (g : Mat n)
    (hnd : l.Nodup) (hg : ∀ a b, 0 ≤ g a b)
    (hbound : ∀ p ∈ chainPairs l, pf ≤ g p.1 p.2) (hpf : 0 ≤ pf) :
    ∀ a b, 0 ≤ applyAug pf l g a b := by
  intro a b
  rw [applyAug_entry pf l g a b hnd]
  by_cases h1 : (a, b) ∈ chainPairs l
  · rw [if_pos h1]
    have hb : pf ≤ g a b := hbound (a, b) h1
    omega
  · rw [if_neg h1]
    by_cases h2 : (b, a) ∈ chainPairs l
    · rw [if_pos h2]
      have := hg a b
      omega
    · rw [if_neg h2]
      exact hg a b

/-- An augmentation preserves the sum of each antiparallel entry pair. -/
theorem applyAug_pairSum {n : Nat} (pf : Int) (l : List (Fin n)) (g : Mat n)
    (hnd : l.Nodup) :
    ∀ a b, applyAug pf l g a b + applyAug pf l g b a = g a b + g b a := by
  intro a b
  rw [applyAug_entry pf l g a b hnd, applyAug_entry pf l g b a hnd]
  by_cases h1 : (a, b) ∈ chainPairs l
  · have h2 : (b, a) ∉ chainPairs l := chainPairs_no_swap l hnd a b h1
    rw [if_pos h1, if_neg h2, if_pos h1]
    ring
  · rw [if_neg h1]
    by_cases h2 : (b, a) ∈ chainPairs l
    · rw [if_pos h2, if_pos h2]
      ring
    · rw [if_neg h2, if_neg h2, if_neg h1]

/-! ### Row and column sums -/

/-- Sum of the row of `w`: total residual capacity out of `w`. -/
def rowSum {n : Nat} (g : Mat n) (w : Fin n) : Int := ∑ v, g w v

/-- Sum of the column of `w`: total residual capacity into `w`. -/
def colSum {n : Nat} (g : Mat n) (w : Fin n) : Int := ∑ v, g v w

theorem sum_update_int {n : Nat} (f : Fin n → Int) (v : Fin n) (x : Int) :
    (∑ b, Function.update f v x b) = (∑ b, f b) + (x - f v) := by
  have h1 : (∑ b, Function.update f v x b)
      = x + ∑ b ∈ Finset.univ \ {v}, f b :=
    Finset.sum_update_of_mem (Finset.mem_univ v) f x
  have h2 : (∑ b, f b) = f v + ∑ b ∈ Finset.univ.erase v, f b :=
    (Finset.add_sum_erase Finset.univ f (Finset.mem_univ v)).symm
  rw [h1, h2, Finset.sdiff_singleton_eq_erase]
  ring

theorem rowSum_pairUpd {n : Nat} (g : Mat n) (u v : Fin n) (pf : Int)
    (huv : u ≠ v) (w : Fin n) :
    rowSum (pairUpd g u v pf) w
      = rowSum g w + (if w = v then pf else 0) - (if w = u then pf else 0) := by
  by_cases hwu : w = u
  · have hwv : w ≠ v := by rw [hwu]; exact huv
    have hrow : (pairUpd g u v pf) w = Function.update (g u) v (g u v - pf) := by
      funext b
      rw [hwu]
      by_cases hbv : b = v
      · have hne : ¬(u = v ∧ b = u) := fun h => huv h.1
        rw [pairUpd, updCap_other _ _ _ _ _ _ hne, hbv, updCap_same,
          Function.update_same]
      · have hne1 : ¬(u = v ∧ b = u) := fun h => huv h.1
        have hne2 : ¬(u = u ∧ b = v) := fun h => hbv h.2
        rw [pairUpd, updCap_other _ _ _ _ _ _ hne1, updCap_other _ _ _ _ _ _ hne2,
          Function.update_noteq hbv]
    rw [rowSum, hrow, sum_update_int, if_neg hwv, if_pos hwu]
    rw [rowSum, hwu]
    ring
  · by_cases hwv : w = v
    · have hvu : ¬(v = u ∧ u = v) := fun h => huv h.2
      have hrow : (pairUpd g u v pf) w = Function.update (g v) u (g v u + pf) := by
        funext b
        rw [hwv]
        by_cases hbu : b = u
        · rw [pairUpd, hbu, updCap_same, updCap_other _ _ _ _ _ _ hvu,
            Function.update_same]
        · have hne1 : ¬(v = v ∧ b = u) := fun h => hbu h.2
          have hne2 : ¬(v = u ∧ b = v) := fun h => huv h.1.symm
          rw [pairUpd, updCap_other _ _ _ _ _ _ hne1, updCap_other _ _ _ _ _ _ hne2,
            Function.update_noteq hbu]
      rw [rowSum, hrow, sum_update_int, if_pos hwv, if_neg hwu]
      rw [rowSum, hwv]
      ring
    · have hrow : (pairUpd g u v pf) w = g w := by
        funext b
        have hne1 : ¬(w = v ∧ b = u) := fun h => hwv h.1
        have hne2 : ¬(w = u ∧ b = v) := fun h => hwu h.1
        rw [pairUpd, updCap_other _ _ _ _ _ _ hne1, updCap_other _ _ _ _ _ _ hne2]
      rw [rowSum, hrow, if_neg hwv, if_neg hwu]
      rw [rowSum]
      ring

theorem colSum_pairUpd {n : Nat} (g : Mat n) (u v : Fin n) (pf : Int)
    (huv : u ≠ v) (w : Fin n) :
    colSum (pairUpd g u v pf) w
      = colSum g w - (if w = v then pf else 0) + (if w = u then pf else 0) := by
  by_cases hwv : w = v
  · have hwu : w ≠ u := by rw [hwv]; exact fun h => huv h.symm
    have hcol : (fun a => pairUpd g u v pf a w)
        = Function.update (fun a => g a v) u (g u v - pf) := by
      funext a
      rw [hwv]
      by_cases hau : a = u
      · have hne : ¬(a = v ∧ v = u) := fun h => huv h.2.symm
        rw [pairUpd, updCap_other _ _ _ _ _ _ hne, hau, updCap_same, Function.update_same]
      · have hne1 : ¬(a = v ∧ v = u) := fun h => huv h.2.symm
        have hne2 : ¬(a = u ∧ v = v) := fun h => hau h.1
        rw [pairUpd, updCap_other _ _ _ _ _ _ hne1, updCap_other _ _ _ _ _ _ hne2,
          Function.update_noteq hau]
    rw [colSum, show (∑ a, pairUpd g u v pf a w) = ∑ a, (fun a => pairUpd g u v pf a w) a from rfl,
      hcol, sum_update_int, if_pos hwv, if_neg hwu]
    rw [colSum, hwv]
    ring
  · by_cases hwu : w = u
    · have hcol : (fun a => pairUpd g u v pf a w)
          = Function.update (fun a => g a u) v (g v u + pf) := by
        funext a
        rw [hwu]
        by_cases hav : a = v
        · have hne : ¬(v = u ∧ u = v) := fun h => huv h.2
          rw [pairUpd, hav, updCap_same, updCap_other _ _ _ _ _ _ hne,
            Function.update_same]
        · have hne1 : ¬(a = v ∧ u = u) := fun h => hav h.1
          have hne2 : ¬(a = u ∧ u = v) := fun h => huv h.2
          rw [pairUpd, updCap_other _ _ _ _ _ _ hne1, updCap_other _ _ _ _ _ _ hne2,
            Function.update_noteq hav]
      rw [colSum, show (∑ a, pairUpd g u v pf a w) = ∑ a, (fun a => pairUpd g u v pf a w) a from rfl,
        hcol, sum_update_int, if_neg hwv, if_pos hwu]
      rw [colSum, hwu]
      ring
    · have hcol : ∀ a, pairUpd g u v pf a w = g a w := by
        intro a
        have hne1 : ¬(a = v ∧ w = u) := fun h => hwu h.2
        have hne2 : ¬(a = u ∧ w = v) := fun h => hwv h.2
        rw [pairUpd, updCap_other _ _ _ _ _ _ hne1, updCap_other _ _ _ _ _ _ hne2]
      rw [colSum, Finset.sum_congr rfl (fun a _ => hcol a), if_neg hwv, if_neg hwu]
      rw [colSum]
      ring

theorem if_or_split (P Q : Prop) [Decidable P] [Decidable Q] (x : Int)
    (h : ¬(P ∧ Q)) :
    (if P ∨ Q then x else 0) = (if P then x else 0) + (if Q then x else 0) := by
  by_cases hP : P
  · by_cases hQ : Q
    · exact absurd ⟨hP, hQ⟩ h
    · simp [hP, hQ]
  · by_cases hQ : Q
    · simp [hP, hQ]
    · simp [hP, hQ]

/-- Effect of a chain augmentation on row sums: `+pf` at the head of the
chain (the sink), `-pf` at its last element (the source), `0` elsewhere. -/
theorem applyAug_rowSum {n : Nat} (pf : Int) :
    ∀ (l : List (Fin n)) (g : Mat n) (w : Fin n), l.Nodup →
      rowSum (applyAug pf l g) w
        = rowSum g w + (if w ∈ l.dropLast then pf else 0)
          - (if w ∈ l.drop 1 then pf else 0) := by
  intro l
  induction l with
  | nil => intro g w _; simp [applyAug]
  | cons v l ih =>
    match l with
    | [] => intro g w _; simp [applyAug]
    | u :: rest =>
      intro g w hnd
      have hvnotin : v ∉ u :: rest := (List.nodup_cons.mp hnd).1
      have hnd' : (u :: rest).Nodup := (List.nodup_cons.mp hnd).2
      have hunotin : u ∉ rest := (List.nodup_cons.mp hnd').1
      have huv : u ≠ v := fun h => hvnotin (by rw [← h]; exact List.mem_cons_self u rest)
      have hstep : rowSum (applyAug pf (v :: u :: rest) g) w
          = rowSum (applyAug pf (u :: rest) (pairUpd g u v pf)) w := rfl
      rw [hstep, ih (pairUpd g u v pf) w hnd', rowSum_pairUpd g u v pf huv w]
      have hdl : (v :: u :: rest).dropLast = v :: (u :: rest).dropLast :=
        List.dropLast_cons₂
      have hdr1 : (v :: u :: rest).drop 1 = u :: rest := rfl
      have hdr2 : (u :: rest).drop 1 = rest := rfl
      rw [hdl, hdr1, hdr2]
      have hmem1 : (w ∈ v :: (u :: rest).dropLast) ↔ (w = v ∨ w ∈ (u :: rest).dropLast) :=
        List.mem_cons
      have hmem2 : (w ∈ u :: rest) ↔ (w = u ∨ w ∈ rest) := List.mem_cons
      rw [if_congr hmem1 rfl rfl, if_congr hmem2 rfl rfl]
      have hsplit1 : ¬(w = v ∧ w ∈ (u :: rest).dropLast) := by
        rintro ⟨h1, h2⟩
        rw [h1] at h2
        exact hvnotin (List.dropLast_subset (u :: rest) h2)
      have hsplit2 : ¬(w = u ∧ w ∈ rest) := by
        rintro ⟨h1, h2⟩
        rw [h1] at h2
        exact hunotin h2
      rw [if_or_split _ _ pf hsplit1, if_or_split _ _ pf hsplit2]
      ring

/-- Effect of a chain augmentation on column sums: `-pf` at the head of
the chain, `+pf` at its last element, `0` elsewhere. -/
theorem applyAug_colSum {n : Nat} (pf : Int) :
    ∀ (l : List (Fin n)) (g : Mat n) (w : Fin n), l.Nodup →
      colSum (applyAug pf l g) w
        = colSum g w - (if w ∈ l.dropLast then pf else 0)
          + (if w ∈ l.drop 1 then pf else 0) := by
  intro l
  induction l with
  | nil => intro g w _; simp [applyAug]
  | cons v l ih =>
    match l with
    | [] => intro g w _; simp [applyAug]
    | u :: rest =>
      intro g w hnd
      have hvnotin : v ∉ u :: rest := (List.nodup_cons.mp hnd).1
      have hnd' : (u :: rest).Nodup := (List.nodup_cons.mp hnd).2
      have hunotin : u ∉ rest := (List.nodup_cons.mp hnd').1
      have huv : u ≠ v := fun h => hvnotin (by rw [← h]; exact List.mem_cons_self u rest)
      have hstep : colSum (applyAug pf (v :: u :: rest) g) w
          = colSum (applyAug pf (u :: rest) (pairUpd g u v pf)) w := rfl
      rw [hstep, ih (pairUpd g u v pf) w hnd', colSum_pairUpd g u v pf huv w]
      have hdl : (v :: u :: rest).dropLast = v :: (u :: rest).dropLast :=
        List.dropLast_cons₂
      have hdr1 : (v :: u :: rest).drop 1 = u :: rest := rfl
      have hdr2 : (u :: rest).drop 1 = rest := rfl
      rw [hdl, hdr1, hdr2]
      have hmem1 : (w ∈ v :: (u :: rest).dropLast) ↔ (w = v ∨ w ∈ (u :: rest).dropLast) :=
        List.mem_cons
      have hmem2 : (w ∈ u :: rest) ↔ (w = u ∨ w ∈ rest) := List.mem_cons
      rw [if_congr hmem1 rfl rfl, if_congr hmem2 rfl rfl]
      have hsplit1 : ¬(w = v ∧ w ∈ (u :: rest).dropLast) := by
        rintro ⟨h1, h2⟩
        rw [h1] at h2
        exact hvnotin (List.dropLast_subset (u :: rest) h2)
      have hsplit2 : ¬(w = u ∧ w ∈ rest) := by
        rintro ⟨h1, h2⟩
        rw [h1] at h2
        exact hunotin h2
      rw [if_or_split _ _ pf hsplit1, if_or_split _ _ pf hsplit2]
      ring

/-! ### Characterizing one iteration of the solver loop -/

theorem walkMin_self {n : Nat} (g : Mat n) (par : Par n) (s : Fin n) :
    ∀ (fuel : Nat) (acc : WithTop Int), walkMin g par s fuel s acc = some acc := by
  intro fuel acc
  match fuel with
  | 0 => simp [walkMin]
  | fuel + 1 => simp [walkMin]

theorem augmentLoop_self {n : Nat} (par : Par n) (s : Fin n) (pf : Int) :
    ∀ (fuel : Nat) (g : Mat n), augmentLoop par s pf fuel g s = some g := by
  intro fuel g
  match fuel with
  | 0 => simp [augmentLoop]
  | fuel + 1 => simp [augmentLoop]

theorem nodup_dropLast_ne_last {α : Type} [DecidableEq α] (l : List α) (s : α)
    (hnd : l.Nodup) (hlast : l.getLast? = some s) :
    ∀ x ∈ l.dropLast, x ≠ s := by
  intro x hx hxs
  have hne : l ≠ [] := by
    intro h; rw [h] at hlast; exact Option.noConfusion hlast
  have hgl : l.getLast hne = s := by
    have := List.getLast?_eq_getLast l hne
    rw [this] at hlast
    exact Option.some.inj hlast
  have hsplit : l.dropLast ++ [l.getLast hne] = l := List.dropLast_append_getLast hne
  have hnd' : (l.dropLast ++ [l.getLast hne]).Nodup := by rw [hsplit]; exact hnd
  have hdisj := (List.nodup_append.mp hnd').2.2
  rw [hxs] at hx
  have : s ∉ [l.getLast hne] := hdisj hx
  rw [hgl] at this
  exact this (List.mem_singleton_self s)

theorem chainPairs_nil_short {n : Nat} :
    ∀ (l : List (Fin n)), chainPairs l = [] → l.length ≤ 1 := by
  intro l h
  match l with
  | [] => simp
  | [x] => simp
  | x :: y :: rest => exact absurd h (by simp [chainPairs])

/-- From a successful BFS there is a duplicate-free parent chain from the
sink back to the source. -/
theorem exists_chain_of_vis {n : Nat} (g : Mat n) (par : Par n) (s t : Fin n)
    (hv : (bfs g s par).1 t = true) :
    ∃ l : List (Fin n), l.head? = some t ∧ l.getLast? = some s ∧ l.Nodup ∧
      IsChain g (bfs g s par).2 s l ∧ l.length ≤ n ∧
      (∀ x ∈ l.dropLast, x ≠ s) := by
  obtain ⟨-, -, rank, hbound, hchain⟩ := bfs_post g s par
  obtain ⟨l, hhead, hlast, hch, hnd, -⟩ :=
    chain_exists g s (bfs g s par).1 (bfs g s par).2 rank hchain
      (rank t + 1) t hv (Nat.lt_succ_self _)
  refine ⟨l, hhead, hlast, hnd, hch, ?_, nodup_dropLast_ne_last l s hnd hlast⟩
  have := List.Nodup.length_le_card hnd
  simpa using this

theorem ekStep_done_iff {n : Nat} (g : Mat n) (par : Par n) (s t : Fin n) :
    ekStep g par s t = .done ↔ (bfs g s par).1 t = false := by
  constructor
  · intro h
    by_cases hv : (bfs g s par).1 t = true
    · exfalso
      simp only [ekStep, hv, if_true] at h
      cases hw : walkMin g (bfs g s par).2 s n t ⊤ with
      | none => rw [hw] at h; exact StepRes.noConfusion h
      | some pf =>
        rw [hw] at h
        have h2 : (match augmentLoop (bfs g s par).2 s (pf.untop' 0) n g t with
            | none => StepRes.stuck
            | some g2 => StepRes.next g2 (bfs g s par).2 pf) = StepRes.done := h
        cases ha : augmentLoop (bfs g s par).2 s (pf.untop' 0) n g t with
        | none => rw [ha] at h2; exact StepRes.noConfusion h2
        | some g2 => rw [ha] at h2; exact StepRes.noConfusion h2
    · simp only [Bool.not_eq_true] at hv
      exact hv
  · intro h
    simp [ekStep, h]

theorem ekStep_never_stuck {n : Nat} (g : Mat n) (par : Par n) (s t : Fin n) :
    ekStep g par s t ≠ .stuck := by
  by_cases hv : (bfs g s par).1 t = true
  · obtain ⟨l, hhead, hlast, hnd, hch, hlen, hdl⟩ := exists_chain_of_vis g par s t hv
    have hlen' : l.length ≤ n + 1 := Nat.le_succ_of_le hlen
    have hw := walkMin_eq_chain g (bfs g s par).2 s l t ⊤ n hch hhead hdl hlen'
    have ha := augmentLoop_eq_chain g (bfs g s par).2 s
      ((List.foldl min ⊤ (chainCaps g l)).untop' 0) l t g n hch hhead hdl hlen'
    simp only [ekStep, hv, if_true, hw, ha]
    intro h
    exact StepRes.noConfusion h
  · simp only [Bool.not_eq_true] at hv
    rw [(ekStep_done_iff g par s t).mpr hv]
    intro hh
    exact StepRes.noConfusion hh

/-- Full characterization of a `next` step: the new matrix is the chain
augmentation of the old one along a duplicate-free parent chain from sink
to source with positive capacities, and the pushed amount is the chain's
bottleneck. -/
theorem ekStep_next_master {n : Nat} (g : Mat n) (par : Par n) (s t : Fin n)
    (g' : Mat n) (par' : Par n) (pf : WithTop Int)
    (h : ekStep g par s t = .next g' par' pf) :
    ∃ l : List (Fin n),
      l.head? = some t ∧ l.getLast? = some s ∧ l.Nodup ∧
      IsChain g (bfs g s par).2 s l ∧
      pf = List.foldl min ⊤ (chainCaps g l) ∧
      g' = applyAug (pf.untop' 0) l g ∧
      0 ≤ pf.untop' 0 ∧
      (∀ p ∈ chainPairs l, pf.untop' 0 ≤ g p.1 p.2) ∧
      (s ≠ t → pf = ((pf.untop' 0 : Int) : WithTop Int) ∧ 1 ≤ pf.untop' 0) := by
  by_cases hv : (bfs g s par).1 t = true
  · obtain ⟨l, hhead, hlast, hnd, hch, hlen, hdl⟩ := exists_chain_of_vis g par s t hv
    have hlen' : l.length ≤ n + 1 := Nat.le_succ_of_le hlen
    have hw := walkMin_eq_chain g (bfs g s par).2 s l t ⊤ n hch hhead hdl hlen'
    have ha := augmentLoop_eq_chain g (bfs g s par).2 s
      ((List.foldl min ⊤ (chainCaps g l)).untop' 0) l t g n hch hhead hdl hlen'
    simp only [ekStep, hv, if_true, hw, ha] at h
    have hg' : g' = applyAug ((List.foldl min ⊤ (chainCaps g l)).untop' 0) l g
        ∧ par' = (bfs g s par).2
        ∧ pf = List.foldl min ⊤ (chainCaps g l) := by
      cases h
      exact ⟨rfl, rfl, rfl⟩
    obtain ⟨hg'1, hpar', hpf⟩ := hg'
    by_cases hpairs : chainPairs l = []
    · have hcaps : chainCaps g l = [] := by
        rw [chainCaps, hpairs]
        rfl
      have hpftop : pf = ⊤ := by rw [hpf, hcaps]; rfl
      have huntop : pf.untop' 0 = 0 := by rw [hpftop]; rfl
      refine ⟨l, hhead, hlast, hnd, hch, hpf, by rw [hg'1, hpf], ?_, ?_, ?_⟩
      · rw [huntop]
      · intro p hp
        rw [hpairs] at hp
        exact absurd hp (List.not_mem_nil p)
      · intro hst
        exfalso
        have hshort := chainPairs_nil_short l hpairs
        match l, hhead, hlast with
        | [x], hhead, hlast =>
          have hxt : x = t := by simpa using hhead
          have hxs : x = s := by simpa using hlast
          exact hst (by rw [← hxs, hxt])
    · have hcapsne : chainCaps g l ≠ [] := by
        rw [chainCaps]
        intro hcon
        exact hpairs (List.map_eq_nil_iff.mp hcon)
      obtain ⟨c0, hc0⟩ := List.exists_mem_of_ne_nil _ hcapsne
      have hub : pf ≤ c0 := by rw [hpf]; exact foldl_min_le_mem _ ⊤ c0 hc0
      have hc0top : c0 ≠ ⊤ := by
        rw [chainCaps] at hc0
        obtain ⟨p, -, hpc⟩ := List.mem_map.mp hc0
        rw [← hpc]
        exact WithTop.coe_ne_top
      have hpfne : pf ≠ ⊤ := by
        intro hcon
        rw [hcon] at hub
        exact hc0top (top_le_iff.mp hub)
      obtain ⟨p0, hp0⟩ := WithTop.ne_top_iff_exists.mp hpfne
      have huntop : pf.untop' 0 = p0 := by rw [← hp0]; rfl
      have hone : (1 : WithTop Int) ≤ pf := by
        rw [hpf]
        refine le_foldl_min _ ⊤ 1 ?_ le_top
        intro x hx
        rw [chainCaps] at hx
        obtain ⟨p, hpmem, hpc⟩ := List.mem_map.mp hx
        have hpos := chainPairs_pos g (bfs g s par).2 s l hch p hpmem
        rw [← hpc]
        exact_mod_cast hpos
      refine ⟨l, hhead, hlast, hnd, hch, hpf, by rw [hg'1, hpf], ?_, ?_, ?_⟩
      · rw [huntop]
        have : ((1 : Int) : WithTop Int) ≤ (p0 : WithTop Int) := by
          rw [hp0]
          exact_mod_cast hone
        have h1 : (1 : Int) ≤ p0 := WithTop.coe_le_coe.mp this
        omega
      · intro p hp
        have hmem : ((g p.1 p.2 : Int) : WithTop Int) ∈ chainCaps g l := by
          rw [chainCaps]
          exact List.mem_map.mpr ⟨p, hp, rfl⟩
        have := foldl_min_le_mem _ ⊤ _ hmem
        rw [← hpf] at this
        rw [huntop]
        rw [← hp0] at this
        exact WithTop.coe_le_coe.mp this
      · intro _
        constructor
        · rw [huntop, ← hp0]
        · rw [huntop]
          have : ((1 : Int) : WithTop Int) ≤ (p0 : WithTop Int) := by
            rw [hp0]
            exact_mod_cast hone
          exact WithTop.coe_le_coe.mp this
  · simp only [Bool.not_eq_true] at hv
    rw [(ekStep_done_iff g par s t).mpr hv] at h
    exact absurd h (fun hh => StepRes.noConfusion hh)

/-! ### The main loop invariant -/

/-- Invariant of the `while self.bfs(...)` loop relative to the original
matrix `c`: entries stay non-negative, each antiparallel pair sum is
preserved, row and column sums away from source and sink are preserved
(flow conservation), and the accumulated `max_flow` equals the total
decrease of the source row. -/
def EkInv {n : Nat} (c : Mat n) (s t : Fin n) (g : Mat n) (mf : WithTop Int) : Prop :=
  (∀ a b, 0 ≤ g a b) ∧
  (∀ a b, g a b + g b a = c a b + c b a) ∧
  (∀ w, w ≠ s → w ≠ t → rowSum g w = rowSum c w) ∧
  (∀ w, w ≠ s → w ≠ t → colSum g w = colSum c w) ∧
  mf = ((rowSum c s - rowSum g s : Int) : WithTop Int)

theorem EkInv_init {n : Nat} (c : Mat n) (s t : Fin n)
    (hc : ∀ a b, 0 ≤ c a b) : EkInv c s t c 0 := by
  refine ⟨hc, fun _ _ => rfl, fun _ _ _ => rfl, fun _ _ _ => rfl, ?_⟩
  simp

theorem EkInv_step {n : Nat} (c : Mat n) (s t : Fin n) (g g' : Mat n)
    (par par' : Par n) (mf pf : WithTop Int) (hst : s ≠ t)
    (hInv : EkInv c s t g mf) (h : ekStep g par s t = .next g' par' pf) :
    EkInv c s t g' (mf + pf) ∧
      rowSum g' s = rowSum g s - pf.untop' 0 ∧ 1 ≤ pf.untop' 0 := by
  obtain ⟨l, hhead, hlast, hnd, hch, hpf, hg', hpf0, hbound, hfin⟩ :=
    ekStep_next_master g par s t g' par' pf h
  obtain ⟨hpfcoe, hpf1⟩ := hfin hst
  have hsl : s ∈ l := List.mem_of_mem_getLast? (by rw [hlast]; rfl)
  have htl : t ∈ l := List.mem_of_mem_head? (by rw [hhead]; rfl)
  have hlne : l ≠ [] := by
    intro hcon; rw [hcon] at hhead; exact Option.noConfusion hhead
  have hdlne : ∀ x ∈ l.dropLast, x ≠ s := nodup_dropLast_ne_last l s hnd hlast
  have hsdl : s ∉ l.dropLast := fun hmem => (hdlne s hmem) rfl
  -- membership in the tail: anything in l other than the head t
  have htail : ∀ w, w ∈ l → w ≠ t → w ∈ l.drop 1 := by
    intro w hw hwt
    match l, hhead with
    | x :: rest, hhead =>
      have hxt : x = t := by simpa using hhead
      rcases List.mem_cons.mp hw with hcase | hcase
      · exact absurd (by rw [hcase, hxt]) hwt
      · simpa using hcase
  -- membership in dropLast: anything in l other than the last s
  have hdlmem : ∀ w, w ∈ l → w ≠ s → w ∈ l.dropLast := by
    intro w hw hws
    have hgl : l.getLast hlne = s := by
      have := List.getLast?_eq_getLast l hlne
      rw [this] at hlast
      exact Option.some.inj hlast
    have hsplit : l.dropLast ++ [l.getLast hlne] = l := List.dropLast_append_getLast hlne
    rw [← hsplit] at hw
    rcases List.mem_append.mp hw with hcase | hcase
    · exact hcase
    · rw [List.mem_singleton.mp hcase, hgl] at hws
      exact absurd rfl hws
  have hstail : s ∈ l.drop 1 := htail s hsl (fun hcon => hst hcon)
  have hrowS : rowSum g' s = rowSum g s - pf.untop' 0 := by
    rw [hg', applyAug_rowSum _ l g s hnd, if_neg hsdl, if_pos hstail]
    ring
  refine ⟨⟨?_, ?_, ?_, ?_, ?_⟩, hrowS, hpf1⟩
  · rw [hg']
    exact applyAug_nonneg _ l g hnd hInv.1 hbound hpf0
  · intro a b
    rw [hg', applyAug_pairSum _ l g hnd a b]
    exact hInv.2.1 a b
  · intro w hws hwt
    rw [hg', applyAug_rowSum _ l g w hnd]
    by_cases hwl : w ∈ l
    · rw [if_pos (hdlmem w hwl hws), if_pos (htail w hwl hwt)]
      have := hInv.2.2.1 w hws hwt
      omega
    · rw [if_neg (fun hmem => hwl (List.dropLast_subset l hmem)),
        if_neg (fun hmem => hwl (List.drop_subset 1 l hmem))]
      have := hInv.2.2.1 w hws hwt
      omega
  · intro w hws hwt
    rw [hg', applyAug_colSum _ l g w hnd]
    by_cases hwl : w ∈ l
    · rw [if_pos (hdlmem w hwl hws), if_pos (htail w hwl hwt)]
      have := hInv.2.2.2.1 w hws hwt
      omega
    · rw [if_neg (fun hmem => hwl (List.dropLast_subset l hmem)),
        if_neg (fun hmem => hwl (List.drop_subset 1 l hmem))]
      have := hInv.2.2.2.1 w hws hwt
      omega
  · rw [hInv.2.2.2.2, hpfcoe, hrowS, ← WithTop.coe_add]
    congr 1
    ring

/-- Normal termination: the matrix the solver leaves behind admits no
further augmenting path (its BFS from the source no longer reaches the
sink). -/
def NoAug {n : Nat} (g : Mat n) (s t : Fin n) : Prop :=
  (bfs g s (fun _ => none)).1 t = false

theorem ekLoop_some_noAug {n : Nat} (s t : Fin n) :
    ∀ (fuel : Nat) (g : Mat n) (par : Par n) (mf : WithTop Int)
      (gF : Mat n) (mfF : WithTop Int),
      ekLoop s t fuel g par mf = some (gF, mfF) → NoAug gF s t := by
  intro fuel
  induction fuel with
  | zero =>
    intro g par mf gF mfF h
    exact absurd h (by simp [ekLoop])
  | succ fuel ih =>
    intro g par mf gF mfF h
    simp only [ekLoop] at h
    cases hstep : ekStep g par s t with
    | done =>
      rw [hstep] at h
      have h' : some (g, mf) = some (gF, mfF) := h
      have hg : g = gF := congrArg Prod.fst (Option.some.inj h')
      have hdone := (ekStep_done_iff g par s t).mp hstep
      rw [NoAug, ← hg]
      have hindep := bfs_vis_indep g s par (fun _ => none)
      rw [← congrFun hindep t]
      exact hdone
    | next g2 par2 pf =>
      rw [hstep] at h
      have h' : ekLoop s t fuel g2 par2 (mf + pf) = some (gF, mfF) := h
      exact ih g2 par2 (mf + pf) gF mfF h'
    | stuck =>
      exact absurd hstep (ekStep_never_stuck g par s t)

theorem ekLoop_some_inv {n : Nat} (c : Mat n) (s t : Fin n) (hst : s ≠ t) :
    ∀ (fuel : Nat) (g : Mat n) (par : Par n) (mf : WithTop Int)
      (gF : Mat n) (mfF : WithTop Int),
      EkInv c s t g mf → ekLoop s t fuel g par mf = some (gF, mfF) →
      EkInv c s t gF mfF := by
  intro fuel
  induction fuel with
  | zero =>
    intro g par mf gF mfF _ h
    exact absurd h (by simp [ekLoop])
  | succ fuel ih =>
    intro g par mf gF mfF hInv h
    simp only [ekLoop] at h
    cases hstep : ekStep g par s t with
    | done =>
      rw [hstep] at h
      have h' : some (g, mf) = some (gF, mfF) := h
      have hg : g = gF := congrArg Prod.fst (Option.some.inj h')
      have hmf : mf = mfF := congrArg Prod.snd (Option.some.inj h')
      rw [← hg, ← hmf]
      exact hInv
    | next g2 par2 pf =>
      rw [hstep] at h
      have h' : ekLoop s t fuel g2 par2 (mf + pf) = some (gF, mfF) := h
      exact ih g2 par2 (mf + pf) gF mfF
        (EkInv_step c s t g g2 par par2 mf pf hst hInv hstep).1 h'
    | stuck =>
      exact absurd hstep (ekStep_never_stuck g par s t)

/-! ### Cuts, feasible flows and duality -/

/-- Capacity of the cut `(S, Sᶜ)`: total capacity of edges leaving `S`. -/
def cutCap {n : Nat} (c : Mat n) (S : Finset (Fin n)) : Int :=
  ∑ u ∈ S, ∑ v ∈ Sᶜ, c u v

/-- A feasible `s`-`t` flow on capacities `c`: per-edge bounds
`0 ≤ f ≤ c` and conservation (inflow = outflow) at every vertex other
than source and sink. -/
def Feasible {n : Nat} (c : Mat n) (s t : Fin n) (f : Fin n → Fin n → Int) : Prop :=
  (∀ a b, 0 ≤ f a b ∧ f a b ≤ c a b) ∧
  (∀ w, w ≠ s → w ≠ t → (∑ u, f u w) = (∑ v, f w v))

/-- Net flow out of the source. -/
def flowValue {n : Nat} (f : Fin n → Fin n → Int) (s : Fin n) : Int :=
  (∑ v, f s v) - (∑ u, f u s)

/-- Weak duality: any feasible flow is bounded by any cut capacity. -/
theorem flowValue_le_cutCap {n : Nat} (c : Mat n) (s t : Fin n)
    (f : Fin n → Fin n → Int) (S : Finset (Fin n))
    (hs : s ∈ S) (ht : t ∉ S) (hf : Feasible c s t f) :
    flowValue f s ≤ cutCap c S := by
  have h1 : ∑ u ∈ S, ((∑ v, f u v) - (∑ v, f v u)) = flowValue f s := by
    rw [Finset.sum_eq_single_of_mem s hs]
    · rfl
    · intro u hu hus
      have hut : u ≠ t := fun hcon => ht (hcon ▸ hu)
      rw [hf.2 u hus hut]
      ring
  have hcomm : (∑ u ∈ S, ∑ v ∈ S, f u v) = ∑ u ∈ S, ∑ v ∈ S, f v u :=
    Finset.sum_comm
  have h2 : flowValue f s
      = (∑ u ∈ S, ∑ v ∈ Sᶜ, f u v) - ∑ u ∈ S, ∑ v ∈ Sᶜ, f v u := by
    rw [← h1]
    have hper : ∀ u ∈ S, (∑ v, f u v) - (∑ v, f v u)
        = ((∑ v ∈ S, f u v) + ∑ v ∈ Sᶜ, f u v)
          - ((∑ v ∈ S, f v u) + ∑ v ∈ Sᶜ, f v u) := by
      intro u _
      rw [Finset.sum_add_sum_compl S (f u),
        Finset.sum_add_sum_compl S (fun v => f v u)]
    rw [Finset.sum_congr rfl hper, Finset.sum_sub_distrib,
      Finset.sum_add_distrib, Finset.sum_add_distrib, hcomm]
    ring
  rw [h2]
  have h3 : (∑ u ∈ S, ∑ v ∈ Sᶜ, f u v) ≤ ∑ u ∈ S, ∑ v ∈ Sᶜ, c u v :=
    Finset.sum_le_sum fun u _ => Finset.sum_le_sum fun v _ => (hf.1 u v).2
  have h4 : (0 : Int) ≤ ∑ u ∈ S, ∑ v ∈ Sᶜ, f v u :=
    Finset.sum_nonneg fun u _ => Finset.sum_nonneg fun v _ => (hf.1 v u).1
  rw [cutCap]
  omega

/-- When the solver stops, the visited set of the final failed BFS is a
cut whose capacity in the original matrix equals the accumulated flow, and
it bounds every feasible flow. -/
theorem final_cut {n : Nat} (c : Mat n) (s t : Fin n) (gF : Mat n)
    (mfF : WithTop Int) (hInv : EkInv c s t gF mfF) (hnp : NoAug gF s t) :
    ∃ S : Finset (Fin n), s ∈ S ∧ t ∉ S ∧
      mfF = ((cutCap c S : Int) : WithTop Int) ∧
      ∀ f, Feasible c s t f → flowValue f s ≤ cutCap c S := by
  obtain ⟨hviss, hclosure, -⟩ := bfs_post gF s (fun _ => none)
  have hsS : s ∈ Finset.univ.filter
      (fun v => (bfs gF s (fun _ => none)).1 v = true) :=
    Finset.mem_filter.mpr ⟨Finset.mem_univ s, hviss⟩
  have htS : t ∉ Finset.univ.filter
      (fun v => (bfs gF s (fun _ => none)).1 v = true) := by
    intro hmem
    have := (Finset.mem_filter.mp hmem).2
    rw [hnp] at this
    exact Bool.noConfusion this
  refine ⟨Finset.univ.filter (fun v => (bfs gF s (fun _ => none)).1 v = true),
    hsS, htS, ?_, ?_⟩
  · set S := Finset.univ.filter
      (fun v => (bfs gF s (fun _ => none)).1 v = true) with hSdef
    have hcross : ∀ u ∈ S, ∀ v ∈ Sᶜ, gF u v = 0 := by
      intro u hu v hv
      have huv : (bfs gF s (fun _ => none)).1 u = true := (Finset.mem_filter.mp hu).2
      have hvv : v ∉ S := Finset.mem_compl.mp hv
      by_cases hpos : 0 < gF u v
      · exact absurd
          (Finset.mem_filter.mpr ⟨Finset.mem_univ v, hclosure u v huv hpos⟩) hvv
      · have := hInv.1 u v
        omega
    have hval : rowSum c s - rowSum gF s = cutCap c S := by
      have h0 : ∀ u ∈ S, u ≠ s → (∑ v, (c u v - gF u v)) = 0 := by
        intro u hu hus
        have hut : u ≠ t := fun hcon => htS (hcon ▸ hu)
        rw [Finset.sum_sub_distrib]
        have := hInv.2.2.1 u hus hut
        rw [rowSum, rowSum] at this
        omega
      have h1 : (∑ u ∈ S, ∑ v, (c u v - gF u v))
          = ∑ v, (c s v - gF s v) := by
        rw [Finset.sum_eq_single_of_mem s hsS]
        intro u hu hus
        exact h0 u hu hus
      have hX : (∑ u ∈ S, ∑ v ∈ S, (c u v - gF u v)) = 0 := by
        have hswap : (∑ u ∈ S, ∑ v ∈ S, (c u v - gF u v))
            = ∑ u ∈ S, ∑ v ∈ S, (c v u - gF v u) := Finset.sum_comm
        have hneg : (∑ u ∈ S, ∑ v ∈ S, (c u v - gF u v))
            = -(∑ u ∈ S, ∑ v ∈ S, (c u v - gF u v)) := by
          calc (∑ u ∈ S, ∑ v ∈ S, (c u v - gF u v))
              = ∑ u ∈ S, ∑ v ∈ S, (c v u - gF v u) := hswap
            _ = ∑ u ∈ S, ∑ v ∈ S, (-(c u v - gF u v)) := by
                refine Finset.sum_congr rfl fun u _ =>
                  Finset.sum_congr rfl fun v _ => ?_
                have := hInv.2.1 u v
                omega
            _ = -(∑ u ∈ S, ∑ v ∈ S, (c u v - gF u v)) := by
                rw [← Finset.sum_neg_distrib]
                refine Finset.sum_congr rfl fun u _ => ?_
                rw [← Finset.sum_neg_distrib]
        omega
      have hsplit : (∑ u ∈ S, ∑ v, (c u v - gF u v))
          = (∑ u ∈ S, ∑ v ∈ S, (c u v - gF u v))
            + ∑ u ∈ S, ∑ v ∈ Sᶜ, (c u v - gF u v) := by
        rw [← Finset.sum_add_distrib]
        refine Finset.sum_congr rfl fun u _ => ?_
        rw [Finset.sum_add_sum_compl S (fun v => c u v - gF u v)]
      have hcrossval : (∑ u ∈ S, ∑ v ∈ Sᶜ, (c u v - gF u v)) = cutCap c S := by
        rw [cutCap]
        refine Finset.sum_congr rfl fun u hu => Finset.sum_congr rfl fun v hv => ?_
        rw [hcross u hu v hv]
        ring
      have hlhs : (∑ v, (c s v - gF s v)) = rowSum c s - rowSum gF s := by
        rw [Finset.sum_sub_distrib, rowSum, rowSum]
      rw [← hlhs, ← h1, hsplit, hX, hcrossval]
      ring
    rw [hInv.2.2.2.2, hval]
  · intro f hf
    exact flowValue_le_cutCap c s t f _ hsS htS hf

/-! ### Termination -/

theorem ekLoop_mono {n : Nat} (s t : Fin n) :
    ∀ (fuel : Nat) (g : Mat n) (par : Par n) (mf : WithTop Int)
      (r : Mat n × WithTop Int),
      ekLoop s t fuel g par mf = some r →
      ∀ fuel2, fuel ≤ fuel2 → ekLoop s t fuel2 g par mf = some r := by
  intro fuel
  induction fuel with
  | zero =>
    intro g par mf r h
    exact absurd h (by simp [ekLoop])
  | succ fuel ih =>
    intro g par mf r h fuel2 hle
    match fuel2, hle with
    | fuel2 + 1, hle =>
      simp only [ekLoop] at h ⊢
      cases hstep : ekStep g par s t with
      | done =>
        rw [hstep] at h
        exact h
      | next g2 par2 pf =>
        rw [hstep] at h
        have h' : ekLoop s t fuel g2 par2 (mf + pf) = some r := h
        exact ih g2 par2 (mf + pf) r h' fuel2 (Nat.le_of_succ_le_succ hle)
      | stuck =>
        exact absurd hstep (ekStep_never_stuck g par s t)

theorem rowSum_nonneg {n : Nat} (g : Mat n) (w : Fin n)
    (hg : ∀ a b, 0 ≤ g a b) : 0 ≤ rowSum g w :=
  Finset.sum_nonneg fun v _ => hg w v

/-- The solver loop terminates: the source row sum is a strictly
decreasing non-negative integer measure across augmentations. -/
theorem ekLoop_terminates {n : Nat} (c : Mat n) (s t : Fin n) (hst : s ≠ t) :
    ∀ (N : Nat) (g : Mat n) (par : Par n) (mf : WithTop Int),
      (rowSum g s).toNat ≤ N → EkInv c s t g mf →
      ∃ gF mfF, ekLoop s t (N + 1) g par mf = some (gF, mfF) := by
  intro N
  induction N using Nat.strong_induction_on with
  | _ N ih =>
    intro g par mf hN hInv
    cases hstep : ekStep g par s t with
    | done =>
      refine ⟨g, mf, ?_⟩
      simp only [ekLoop, hstep]
    | next g2 par2 pf =>
      obtain ⟨hInv2, hrow, hpf1⟩ :=
        EkInv_step c s t g g2 par par2 mf pf hst hInv hstep
      have hg2nn : 0 ≤ rowSum g2 s := rowSum_nonneg g2 s hInv2.1
      have hgnn : 0 ≤ rowSum g s := rowSum_nonneg g s hInv.1
      have hlt : (rowSum g2 s).toNat < (rowSum g s).toNat := by omega
      have hNpos : 0 < N := by omega
      have hN2 : (rowSum g2 s).toNat ≤ N - 1 := by omega
      obtain ⟨gF, mfF, hrun⟩ := ih (N - 1) (by omega) g2 par2 (mf + pf) hN2 hInv2
      refine ⟨gF, mfF, ?_⟩
      have hfuel : (N - 1) + 1 ≤ N := by omega
      have hrun2 := ekLoop_mono s t ((N - 1) + 1) g2 par2 (mf + pf) (gF, mfF) hrun N hfuel
      show (match ekStep g par s t with
        | .done => some (g, mf)
        | .next g2 parent2 pf => ekLoop s t N g2 parent2 (mf + pf)
        | .stuck => none) = some (gF, mfF)
      rw [hstep]
      exact hrun2
    | stuck =>
      exact absurd hstep (ekStep_never_stuck g par s t)

/-! ### Concrete graphs from the spec's scenarios -/

/-- The Scenario A graph (also the example usage in the source): vertices
`0 = s, 1 = v1, 2 = v2, 3 = v3, 4 = v4, 5 = t` with the nine listed edges. -/
def cA : Mat 6 := fun u v =>
  if u = 0 ∧ v = 1 then 3 else if u = 0 ∧ v = 2 then 7 else
  if u = 1 ∧ v = 3 then 3 else if u = 1 ∧ v = 4 then 4 else
  if u = 2 ∧ v = 1 then 5 else if u = 2 ∧ v = 4 then 3 else
  if u = 3 ∧ v = 4 then 3 else if u = 3 ∧ v = 5 then 2 else
  if u = 4 ∧ v = 5 then 6 else 0

/-- A 4-vertex graph with an antiparallel edge pair: `0→1:1`, `1→2:1`,
`2→1:1`, `2→3:1`.  Pushing the path `0,1,2,3` makes the final residual
capacity of the caller-added edge `2→1` exceed its original capacity. -/
def cAnti : Mat 4 := fun u v =>
  if u = 0 ∧ v = 1 then 1 else if u = 1 ∧ v = 2 then 1 else
  if u = 2 ∧ v = 1 then 1 else if u = 2 ∧ v = 3 then 1 else 0

/-! ### The Python `Graph.add_edge`, with Python list-index semantics -/

/-- Python list index resolution: `0`-based, negative indices wrap from the
end, anything else raises `IndexError` (modelled as `none`). -/
def pyIdx (len : Nat) (i : Int) : Option Nat :=
  if 0 ≤ i ∧ i < (len : Int) then some i.toNat
  else if -(len : Int) ≤ i ∧ i < 0 then some (i + (len : Int)).toNat
  else none

/-- `Graph.__init__`: `self.adj_matrix = [[0] * size for _ in range(size)]`. -/
def pyInit (size : Nat) : List (List Int) :=
  List.replicate size (List.replicate size 0)

/-- `add_edge(self, u, v, capacity): self.adj_matrix[u][v] = capacity`,
applied to the adjacency matrix with Python's list-index semantics and no
bounds validation of its own (in the source this function is additionally
nested inside `__init__`, so it is not even reachable as a method). -/
def add_edge (m : List (List Int)) (u v capacity : Int) : Option (List (List Int)) :=
  match pyIdx m.length u with
  | none => none
  | some iu =>
    match m[iu]? with
    | none => none
    | some row =>
      match pyIdx row.length v with
      | none => none
      | some iv => some (m.set iu (row.set iv capacity))

/-! ### Claim theorems -/

/-- Claim C1: for every capacitated graph with non-negative capacities and
valid `source ≠ sink`, the total flow returned by `edmonds_karp` equals the
capacity of some source-sink cut of the original matrix, and no feasible
flow can exceed it (max-flow/min-cut). -/
theorem C1_maxflow_eq_mincut {n : Nat} (c : Mat n) (s t : Fin n) (fuel : Nat)
    (gF : Mat n) (mf : WithTop Int)
    (hc : ∀ a b, 0 ≤ c a b) (hst : s ≠ t)
    (hrun : edmonds_karp c s t fuel = some (gF, mf)) :
    ∃ S : Finset (Fin n), s ∈ S ∧ t ∉ S ∧
      mf = ((cutCap c S : Int) : WithTop Int) ∧
      ∀ f, Feasible c s t f → flowValue f s ≤ cutCap c S := by
  have hInv := ekLoop_some_inv c s t hst fuel c (fun _ => none) 0 gF mf
    (EkInv_init c s t hc) hrun
  have hnp := ekLoop_some_noAug s t fuel c (fun _ => none) 0 gF mf hrun
  exact final_cut c s t gF mf hInv hnp

/-- Witness for C1 on the Scenario A graph. -/
theorem C1_maxflow_eq_mincut_witness :
    ∃ gF mf, edmonds_karp cA 0 5 20 = some (gF, mf) ∧
      ∃ S : Finset (Fin 6), (0 : Fin 6) ∈ S ∧ (5 : Fin 6) ∉ S ∧
        mf = ((cutCap cA S : Int) : WithTop Int) ∧
        ∀ f, Feasible cA 0 5 f → flowValue f 0 ≤ cutCap cA S := by
  have hsome : (edmonds_karp cA 0 5 20).isSome = true := by decide
  obtain ⟨r, hr⟩ := Option.isSome_iff_exists.mp hsome
  have hr' : edmonds_karp cA 0 5 20 = some (r.1, r.2) := by rw [hr]
  exact ⟨r.1, r.2, hr',
    C1_maxflow_eq_mincut cA 0 5 20 r.1 r.2 (by decide) (by decide) hr'⟩

/-- Claim C2 (counterexample): on the Scenario A graph the solver returns a
total flow of 8, not 7 as the spec claims. -/
theorem C2_scenarioA_not_seven :
    (edmonds_karp cA 0 5 20).map (fun r => r.2) = some ((8 : Int) : WithTop Int) ∧
    ¬((edmonds_karp cA 0 5 20).map (fun r => r.2) = some ((7 : Int) : WithTop Int)) := by
  constructor
  · decide
  · decide

/-- Claim C2 (amended): on the Scenario A graph the solver returns a total
flow of exactly 8. -/
theorem C2_scenarioA_eq_eight :
    (edmonds_karp cA 0 5 20).map (fun r => r.2) = some ((8 : Int) : WithTop Int) := by
  decide

/-- Claim C3: flow conservation.  After a successful run, for every vertex
other than source and sink, the net flow into it (original capacity minus
final residual, summed over incoming entries) equals the net flow out of
it. -/
theorem C3_flow_conservation {n : Nat} (c : Mat n) (s t : Fin n) (fuel : Nat)
    (gF : Mat n) (mf : WithTop Int)
    (hc : ∀ a b, 0 ≤ c a b) (hst : s ≠ t)
    (hrun : edmonds_karp c s t fuel = some (gF, mf)) :
    ∀ w : Fin n, w ≠ s → w ≠ t →
      (∑ u, (c u w - gF u w)) = (∑ v, (c w v - gF w v)) := by
  have hInv := ekLoop_some_inv c s t hst fuel c (fun _ => none) 0 gF mf
    (EkInv_init c s t hc) hrun
  intro w hws hwt
  have hr := hInv.2.2.1 w hws hwt
  have hco := hInv.2.2.2.1 w hws hwt
  rw [rowSum, rowSum] at hr
  rw [colSum, colSum] at hco
  rw [Finset.sum_sub_distrib, Finset.sum_sub_distrib]
  omega

/-- Witness for C3 on the Scenario A graph. -/
theorem C3_flow_conservation_witness :
    ∃ gF mf, edmonds_karp cA 0 5 20 = some (gF, mf) ∧
      ∀ w : Fin 6, w ≠ 0 → w ≠ 5 →
        (∑ u, (cA u w - gF u w)) = (∑ v, (cA w v - gF w v)) := by
  have hsome : (edmonds_karp cA 0 5 20).isSome = true := by decide
  obtain ⟨r, hr⟩ := Option.isSome_iff_exists.mp hsome
  have hr' : edmonds_karp cA 0 5 20 = some (r.1, r.2) := by rw [hr]
  exact ⟨r.1, r.2, hr',
    C3_flow_conservation cA 0 5 20 r.1 r.2 (by decide) (by decide) hr'⟩

/-- Claim C4: with `source = sink` the code does not fail fast with an
`InvalidEndpoints` error as the spec requires; it performs a BFS whose
visited check at the sink is trivially true and loops forever (modelled:
no amount of fuel makes the run return).  In the source as written the
call would instead crash, since `bfs` is nested inside `__init__`. -/
theorem C4_source_eq_sink_diverges {n : Nat} (g : Mat n) (i : Fin n) (fuel : Nat) :
    edmonds_karp g i i fuel = none := by
  suffices h : ∀ (fuel : Nat) (g : Mat n) (par : Par n) (mf : WithTop Int),
      ekLoop i i fuel g par mf = none from h fuel g (fun _ => none) 0
  intro fuel
  induction fuel with
  | zero => intro g par mf; rfl
  | succ fuel ih =>
    intro g par mf
    have hvis : (bfs g i par).1 i = true := (bfs_post g i par).1
    have hstep : ekStep g par i i = .next g (bfs g i par).2 ⊤ := by
      simp only [ekStep, hvis, if_true, walkMin_self, augmentLoop_self]
    simp only [ekLoop, hstep]
    exact ih g (bfs g i par).2 (mf + ⊤)

/-- Claim C5: termination.  For every graph with non-negative (integer)
capacities and `source ≠ sink`, some finite fuel makes the solver loop
reach its normal exit, i.e. the augmenting-path loop runs finitely often. -/
theorem C5_solver_terminates {n : Nat} (c : Mat n) (s t : Fin n)
    (hc : ∀ a b, 0 ≤ c a b) (hst : s ≠ t) :
    ∃ (fuel : Nat) (gF : Mat n) (mf : WithTop Int),
      edmonds_karp c s t fuel = some (gF, mf) := by
  obtain ⟨gF, mf, h⟩ := ekLoop_terminates c s t hst (rowSum c s).toNat c
    (fun _ => none) 0 (le_refl _) (EkInv_init c s t hc)
  exact ⟨(rowSum c s).toNat + 1, gF, mf, h⟩

/-- Witness for C5 on the Scenario A graph. -/
theorem C5_solver_terminates_witness :
    ∃ (fuel : Nat) (gF : Mat 6) (mf : WithTop Int),
      edmonds_karp cA 0 5 fuel = some (gF, mf) :=
  C5_solver_terminates cA 0 5 (by decide) (by decide)

/-- Claim C6: non-negativity invariant.  Every entry of the matrix stays
`≥ 0` after a full run from a non-negative matrix, and each single
augmentation iteration preserves entrywise non-negativity (it subtracts at
most the residual capacity of each edge it touches). -/
theorem C6_capacity_nonneg_invariant (n : Nat) :
    (∀ (c : Mat n) (s t : Fin n) (fuel : Nat) (gF : Mat n) (mf : WithTop Int),
      (∀ a b, 0 ≤ c a b) → s ≠ t → edmonds_karp c s t fuel = some (gF, mf) →
      ∀ a b, 0 ≤ gF a b) ∧
    (∀ (g : Mat n) (par : Par n) (s t : Fin n) (g2 : Mat n) (par2 : Par n)
      (pf : WithTop Int), (∀ a b, 0 ≤ g a b) →
      ekStep g par s t = .next g2 par2 pf → ∀ a b, 0 ≤ g2 a b) := by
  constructor
  · intro c s t fuel gF mf hc hst hrun
    exact (ekLoop_some_inv c s t hst fuel c (fun _ => none) 0 gF mf
      (EkInv_init c s t hc) hrun).1
  · intro g par s t g2 par2 pf hg hstep
    obtain ⟨l, -, -, hnd, -, -, hg2, hpf0, hbound, -⟩ :=
      ekStep_next_master g par s t g2 par2 pf hstep
    rw [hg2]
    exact applyAug_nonneg _ l g hnd hg hbound hpf0

/-- Witness for C6 on the Scenario A graph. -/
theorem C6_capacity_nonneg_invariant_witness :
    ∃ gF mf, edmonds_karp cA 0 5 20 = some (gF, mf) ∧ ∀ a b, 0 ≤ gF a b := by
  have hsome : (edmonds_karp cA 0 5 20).isSome = true := by decide
  obtain ⟨r, hr⟩ := Option.isSome_iff_exists.mp hsome
  have hr' : edmonds_karp cA 0 5 20 = some (r.1, r.2) := by rw [hr]
  exact ⟨r.1, r.2, hr',
    (C6_capacity_nonneg_invariant 6).1 cA 0 5 20 r.1 r.2 (by decide) (by decide) hr'⟩

/-- Claim C7 (counterexample): the final forward residual capacity of an
edge can exceed its original capacity — on `cAnti`, edge `2→1` starts at 1
and ends at 2 — so the claim's bound `final ≤ original` is false. -/
theorem C7_residual_exceeds_original :
    (edmonds_karp cAnti 0 3 10).map (fun r => r.1 2 1) = some 2 ∧
    cAnti 2 1 = 1 ∧ ¬((2 : Int) ≤ 1) := by
  refine ⟨by decide, by decide, by decide⟩

/-- Claim C7 (amended): after a successful run every entry is `≥ 0` and at
most the original capacity of that edge plus the original capacity of its
reverse edge (and hence `≤` the original capacity whenever the reverse edge
was absent). -/
theorem C7_residual_bounds {n : Nat} (c : Mat n) (s t : Fin n) (fuel : Nat)
    (gF : Mat n) (mf : WithTop Int)
    (hc : ∀ a b, 0 ≤ c a b) (hst : s ≠ t)
    (hrun : edmonds_karp c s t fuel = some (gF, mf)) :
    ∀ a b, 0 ≤ gF a b ∧ gF a b ≤ c a b + c b a := by
  have hInv := ekLoop_some_inv c s t hst fuel c (fun _ => none) 0 gF mf
    (EkInv_init c s t hc) hrun
  intro a b
  have h1 := hInv.1 a b
  have h2 := hInv.1 b a
  have h3 := hInv.2.1 a b
  exact ⟨h1, by omega⟩

/-- Witness for the amended C7 on the Scenario A graph. -/
theorem C7_residual_bounds_witness :
    ∃ gF mf, edmonds_karp cA 0 5 20 = some (gF, mf) ∧
      ∀ a b, 0 ≤ gF a b ∧ gF a b ≤ cA a b + cA b a := by
  have hsome : (edmonds_karp cA 0 5 20).isSome = true := by decide
  obtain ⟨r, hr⟩ := Option.isSome_iff_exists.mp hsome
  have hr' : edmonds_karp cA 0 5 20 = some (r.1, r.2) := by rw [hr]
  exact ⟨r.1, r.2, hr',
    C7_residual_bounds cA 0 5 20 r.1 r.2 (by decide) (by decide) hr'⟩

/-- Claim C8: `add_edge` with an out-of-range index.  With `u = size` the
unvalidated write raises Python's `IndexError` (modelled `none`) rather
than the spec's `IndexOutOfRange`, and with the negative index `u = -1`
(also outside `[0, size)`) it does not fail at all: Python's negative
indexing silently overwrites the last row, so the claim that the matrix is
left entirely unchanged is false on the code. -/
theorem C8_add_edge_negative_index_mutates :
    add_edge (pyInit 2) (-1) 0 5 = some [[0, 0], [5, 0]] ∧
    [[0, 0], [5, 0]] ≠ pyInit 2 ∧
    add_edge (pyInit 2) 2 0 5 = none := by
  refine ⟨by decide, by decide, by decide⟩

/-- Claim C9: idempotent re-run.  Invoking the solver again on the residual
matrix left by a successful run (same source and sink) immediately finds no
augmenting path and returns an additional flow of exactly 0, leaving the
matrix unchanged. -/
theorem C9_rerun_yields_zero {n : Nat} (c : Mat n) (s t : Fin n) (fuel : Nat)
    (gF : Mat n) (mf : WithTop Int)
    (hc : ∀ a b, 0 ≤ c a b) (hst : s ≠ t)
    (hrun : edmonds_karp c s t fuel = some (gF, mf)) (k : Nat) :
    edmonds_karp gF s t (k + 1) = some (gF, 0) := by
  have hnp : NoAug gF s t := ekLoop_some_noAug s t fuel c (fun _ => none) 0 gF mf hrun
  have hdone : ekStep gF (fun _ => none) s t = .done :=
    (ekStep_done_iff gF (fun _ => none) s t).mpr hnp
  show ekLoop s t (k + 1) gF (fun _ => none) 0 = some (gF, 0)
  simp only [ekLoop, hdone]

/-- Witness for C9 on the Scenario A graph. -/
theorem C9_rerun_yields_zero_witness :
    ∃ gF mf, edmonds_karp cA 0 5 20 = some (gF, mf) ∧
      edmonds_karp gF 0 5 1 = some (gF, 0) := by
  have hsome : (edmonds_karp cA 0 5 20).isSome = true := by decide
  obtain ⟨r, hr⟩ := Option.isSome_iff_exists.mp hsome
  have hr' : edmonds_karp cA 0 5 20 = some (r.1, r.2) := by rw [hr]
  exact ⟨r.1, r.2, hr',
    C9_rerun_yields_zero cA 0 5 20 r.1 r.2 (by decide) (by decide) hr' 0⟩

/-- Claim C10: for every ordered pair `(u, v)`, the quantity
`capacity[u][v] + capacity[v][u]` after a successful run equals its value
before the call, and every single augmentation iteration preserves each
such pairwise sum. -/
theorem C10_pair_sum_invariant (n : Nat) :
    (∀ (c : Mat n) (s t : Fin n) (fuel : Nat) (gF : Mat n) (mf : WithTop Int),
      (∀ a b, 0 ≤ c a b) → s ≠ t → edmonds_karp c s t fuel = some (gF, mf) →
      ∀ u v, gF u v + gF v u = c u v + c v u) ∧
    (∀ (g : Mat n) (par : Par n) (s t : Fin n) (g2 : Mat n) (par2 : Par n)
      (pf : WithTop Int), ekStep g par s t = .next g2 par2 pf →
      ∀ u v, g2 u v + g2 v u = g u v + g v u) := by
  constructor
  · intro c s t fuel gF mf hc hst hrun u v
    exact (ekLoop_some_inv c s t hst fuel c (fun _ => none) 0 gF mf
      (EkInv_init c s t hc) hrun).2.1 u v
  · intro g par s t g2 par2 pf hstep u v
    obtain ⟨l, -, -, hnd, -, -, hg2, -, -, -⟩ :=
      ekStep_next_master g par s t g2 par2 pf hstep
    rw [hg2]
    exact applyAug_pairSum _ l g hnd u v

/-- Witness for C10 on the Scenario A graph. -/
theorem C10_pair_sum_invariant_witness :
    ∃ gF mf, edmonds_karp cA 0 5 20 = some (gF, mf) ∧
      ∀ u v, gF u v + gF v u = cA u v + cA v u := by
  have hsome : (edmonds_karp cA 0 5 20).isSome = true := by decide
  obtain ⟨r, hr⟩ := Option.isSome_iff_exists.mp hsome
  have hr' : edmonds_karp cA 0 5 20 = some (r.1, r.2) := by rw [hr]
  exact ⟨r.1, r.2, hr',
    (C10_pair_sum_invariant 6).1 cA 0 5 20 r.1 r.2 (by decide) (by decide) hr'⟩

end EK
